import Mathlib

/-!
Verification of the hisat-3n table core: a shallow embedding of the
per-position accumulator (`position_3n_table_backup.h`, `position_3n_table_backup2.h`,
`position_backup.h`) and of the driver fragments of `hisat_3n_table_mod.cpp`,
together with proofs about the embedded operations.
Machine integers are modelled as `Nat`/`Int`; the narrowing conversions of the
C++ code are made explicit where they matter.
-/

namespace HisatTable

/-- Entry of `Position::uniqueIDs`: one read's contribution at a position
(class `uniqueID` in the sources). -/
structure UniqueID where
  readNameID : Nat
  isConverted : Bool
  quality : Char
  removed : Bool
deriving DecidableEq, Repr, Inhabited

/-- Mutable per-position accumulator state of class `Position`: the two quality
strings (modelled as lists of characters) and the `uniqueIDs` vector.
The `chromosome`, `location` and `strand` fields do not participate in
`appendBase` and are kept out of this record. -/
structure PosState where
  convertedQualities : List Char
  unconvertedQualities : List Char
  uniqueIDs : List UniqueID
deriving DecidableEq, Repr

/-- State produced by `Position::initialize`: both quality strings and the
`uniqueIDs` vector are cleared. -/
def initialPosition : PosState := ⟨[], [], []⟩

/-- The `readNameID` of `uniqueIDs.back()` (unspecified on the empty vector,
where the C++ code never reads it). -/
def lastID (ids : List UniqueID) : Nat := (ids.getLastD default).readNameID

/-- Recursive binary search of `position_3n_table_backup.h`
(`Position::searchReadNameID`): C++ `int` arithmetic is modelled on `Int`;
the element read `uniqueIDs[middle]` is modelled with `getD` (the code never
reads out of range in the contexts where it is called). -/
def searchReadNameID (ids : List UniqueID) (target : Nat) (start e : Int) : Int :=
  if ids = [] then 0
  else if start ≤ e then
    let middle := (start + e) / 2
    let m := (ids.getD middle.toNat default).readNameID
    if m = target then middle
    else if target < m then searchReadNameID ids target start (middle - 1)
    else searchReadNameID ids target (middle + 1) e
  else start
termination_by (e + 1 - start).toNat
decreasing_by
  · omega
  · omega

/-- Iterative binary search of `position_3n_table_backup2.h`
(`Position::searchReadNameID`): the `while (start <= end)` loop is modelled as
tail recursion; note the midpoint `start + (end - start) / 2` and the absence
of the empty-vector check. -/
def searchReadNameIDIterative (ids : List UniqueID) (target : Nat) (start e : Int) : Int :=
  if start ≤ e then
    let middle := start + (e - start) / 2
    let m := (ids.getD middle.toNat default).readNameID
    if m = target then middle
    else if target < m then searchReadNameIDIterative ids target start (middle - 1)
    else searchReadNameIDIterative ids target (middle + 1) e
  else start
termination_by (e + 1 - start).toNat
decreasing_by
  · omega
  · omega

/-- Search of `position_backup.h` (`Position::searchReadNameID`), which calls
`std::lower_bound` with comparator `u.readNameID < id`: by the C++ standard it
returns the index of the first element `u` with `¬(u.readNameID < target)`,
which this linear recursion computes. -/
def lowerBoundIdx (ids : List UniqueID) (target : Nat) : Nat :=
  match ids with
  | [] => 0
  | u :: rest => if u.readNameID < target then lowerBoundIdx rest target + 1 else 0

/-- The erase loop of `appendReadNameID`: scan the quality string for the first
character equal to `q` and erase it; if no character matches, the string is
returned unchanged (the C++ loop falls through without erasing). -/
def eraseFirstQual : List Char → Char → List Char
  | [], _ => []
  | c :: rest, q => if c = q then rest else c :: eraseFirstQual rest q

/-- `Position::appendReadNameID` of `position_3n_table_backup.h`. Returns the
new state and the C++ return value (`true` = the caller should append the
quality). The search is invoked as in the source with bounds `0, idCount`;
the read `uniqueIDs[index]` is modelled by `get?`, whose `none` case
(out of range, unreachable when `uniqueIDs` is sorted) leaves the state
unchanged. The erase loop compares against the incoming quality `q`
(`InBase.qual` in the source), not the stored one. -/
def appendReadNameID (st : PosState) (id : Nat) (conv : Bool) (q : Char) : PosState × Bool :=
  if st.uniqueIDs.length = 0 ∨ lastID st.uniqueIDs < id then
    ({ st with uniqueIDs := st.uniqueIDs ++ [⟨id, conv, q, false⟩] }, true)
  else
    let index := (searchReadNameID st.uniqueIDs id 0 (st.uniqueIDs.length : Int)).toNat
    match st.uniqueIDs.get? index with
    | none => (st, false)
    | some u =>
      if u.readNameID = id then
        if u.removed then (st, false)
        else if u.isConverted ≠ conv then
          let ids' := st.uniqueIDs.set index { u with removed := true }
          if u.isConverted then
            ({ st with
                uniqueIDs := ids',
                convertedQualities := eraseFirstQual st.convertedQualities q }, false)
          else
            ({ st with
                uniqueIDs := ids',
                unconvertedQualities := eraseFirstQual st.unconvertedQualities q }, false)
        else (st, false)
      else
        ({ st with uniqueIDs := st.uniqueIDs.insertIdx index ⟨id, conv, q, false⟩ }, true)

/-- `Position::appendReadNameID` of `position_3n_table_backup2.h`: identical to
the variant above except that it calls the iterative search. -/
def appendReadNameIDIterative (st : PosState) (id : Nat) (conv : Bool) (q : Char) :
    PosState × Bool :=
  if st.uniqueIDs.length = 0 ∨ lastID st.uniqueIDs < id then
    ({ st with uniqueIDs := st.uniqueIDs ++ [⟨id, conv, q, false⟩] }, true)
  else
    let index := (searchReadNameIDIterative st.uniqueIDs id 0 (st.uniqueIDs.length : Int)).toNat
    match st.uniqueIDs.get? index with
    | none => (st, false)
    | some u =>
      if u.readNameID = id then
        if u.removed then (st, false)
        else if u.isConverted ≠ conv then
          let ids' := st.uniqueIDs.set index { u with removed := true }
          if u.isConverted then
            ({ st with
                uniqueIDs := ids',
                convertedQualities := eraseFirstQual st.convertedQualities q }, false)
          else
            ({ st with
                uniqueIDs := ids',
                unconvertedQualities := eraseFirstQual st.unconvertedQualities q }, false)
        else (st, false)
      else
        ({ st with uniqueIDs := st.uniqueIDs.insertIdx index ⟨id, conv, q, false⟩ }, true)

/-- `Position::appendReadNameID` of `position_backup.h`: uses the
`lower_bound` search and guards the element read with
`index < uniqueIDs.size()`; when the guard fails the code takes the insertion
branch (`emplace` at `begin() + index`). -/
def appendReadNameIDLB (st : PosState) (id : Nat) (conv : Bool) (q : Char) : PosState × Bool :=
  if st.uniqueIDs.length = 0 ∨ lastID st.uniqueIDs < id then
    ({ st with uniqueIDs := st.uniqueIDs ++ [⟨id, conv, q, false⟩] }, true)
  else
    let index := lowerBoundIdx st.uniqueIDs id
    match st.uniqueIDs.get? index with
    | none =>
      ({ st with uniqueIDs := st.uniqueIDs.insertIdx index ⟨id, conv, q, false⟩ }, true)
    | some u =>
      if u.readNameID = id then
        if u.removed then (st, false)
        else if u.isConverted ≠ conv then
          let ids' := st.uniqueIDs.set index { u with removed := true }
          if u.isConverted then
            ({ st with
                uniqueIDs := ids',
                convertedQualities := eraseFirstQual st.convertedQualities q }, false)
          else
            ({ st with
                uniqueIDs := ids',
                unconvertedQualities := eraseFirstQual st.unconvertedQualities q }, false)
        else (st, false)
      else
        ({ st with uniqueIDs := st.uniqueIDs.insertIdx index ⟨id, conv, q, false⟩ }, true)

/-- `Position::appendBase` (`position_3n_table_backup.h`): call
`appendReadNameID` and, when it returns `true`, append the quality character
to the string selected by the converted flag. The per-position mutex is not
modelled. -/
def appendBase (st : PosState) (id : Nat) (conv : Bool) (q : Char) : PosState :=
  match appendReadNameID st id conv q with
  | (st', true) =>
    if conv then { st' with convertedQualities := st'.convertedQualities ++ [q] }
    else { st' with unconvertedQualities := st'.unconvertedQualities ++ [q] }
  | (st', false) => st'

/-- One observation fed to a position: the fields of `(PosQuality, Alignment)`
that `appendBase` reads. -/
structure Obs where
  readNameID : Nat
  converted : Bool
  qual : Char
deriving DecidableEq, Repr

/-- Apply one observation through `appendBase`. -/
def applyObs (st : PosState) (o : Obs) : PosState :=
  appendBase st o.readNameID o.converted o.qual

/-- Apply a sequence of observations in order. -/
def applyAll (st : PosState) (l : List Obs) : PosState := l.foldl applyObs st

/-- The `uniqueIDs` vector is strictly ascending by `readNameID`; this is the
invariant the binary searches rely on. -/
def IDsSorted (ids : List UniqueID) : Prop :=
  List.Pairwise (fun a b : UniqueID => a.readNameID < b.readNameID) ids

instance (ids : List UniqueID) : Decidable (IDsSorted ids) := by
  unfold IDsSorted
  infer_instance

/-- Number of entries of `uniqueIDs` not marked `removed`. -/
def countNonRemoved (ids : List UniqueID) : Nat :=
  ids.countP (fun e => !e.removed)

/-- Observable content of a position: both quality strings as multisets plus
the multiset of read ids marked removed. -/
def obsTriple (st : PosState) : Multiset Char × Multiset Char × Multiset Nat :=
  (↑st.convertedQualities, ↑st.unconvertedQualities,
    ↑((st.uniqueIDs.filter (fun e => e.removed)).map UniqueID.readNameID))

/-- Multiset of qualities of the converted observations of a list. -/
def convertedObsQuals (l : List Obs) : Multiset Char :=
  ↑((l.filter (fun o => o.converted)).map Obs.qual)

/-- Multiset of qualities of the unconverted observations of a list. -/
def unconvertedObsQuals (l : List Obs) : Multiset Char :=
  ↑((l.filter (fun o => !o.converted)).map Obs.qual)

/-- Option state produced by `parseOptions` of `hisat_3n_table_mod.cpp`:
conversion characters and their "complements". -/
structure TableOptions where
  convertFrom : Char
  convertTo : Char
  convertFromComplement : Char
  convertToComplement : Char
deriving DecidableEq, Repr

/-- Case `'b'` of `parseOption`: the `--base-change` argument must be three
characters with a comma in the middle; the first and last characters are
upper-cased into `(convertFrom, convertTo)`. -/
def parseBaseChange (arg : List Char) : Option (Char × Char) :=
  if arg.length ≠ 3 ∨ arg.getD 1 ' ' ≠ ',' then none
  else some ((arg.headD ' ').toUpper, (arg.getLastD ' ').toUpper)

/-- Tail of `parseOptions` relevant to `--base-change`: after parsing the
argument, reject the sentinel `'0'` (meaning the option was absent) and then
assign `convertFromComplement = 'G'` and `convertToComplement = 'A'`
unconditionally, as the source does. -/
def parseOptionsBaseChange (arg : List Char) : Option TableOptions :=
  match parseBaseChange arg with
  | none => none
  | some (f, t) =>
    if f = '0' ∨ t = '0' then none
    else some ⟨f, t, 'G', 'A'⟩

/-- Modelled from the spec: the Watson-Crick complement (`A` with `T`, `C`
with `G`); the source has no such function, the spec uses it to describe the
intended values of the complement globals. -/
def wcComplement : Char → Char
  | 'A' => 'T'
  | 'T' => 'A'
  | 'C' => 'G'
  | 'G' => 'C'
  | c => c

/-- Fields of a SAM record that the driver loop of `hisat_3n_table` reads:
reference name (field 3) and 1-based position (field 4, nonnegative for SAM
input). -/
structure SamRec where
  chrom : String
  pos : Nat
deriving DecidableEq, Repr

/-- Order check of the driver loop in `hisat_3n_table`: on a chromosome change
the driver loads the new chromosome and resets `lastPos` to `0`, and only then
compares `lastPos > samPos`, failing (result `true`) when the comparison
holds; otherwise `lastPos` becomes the current position and the loop
continues. -/
def driverOrderCheck : String → Nat → List SamRec → Bool
  | _, _, [] => false
  | chrom, lastPos, r :: rest =>
    let chrom' := if r.chrom ≠ chrom then r.chrom else chrom
    let lastPos' := if r.chrom ≠ chrom then 0 else lastPos
    if r.pos < lastPos' then true
    else driverOrderCheck chrom' r.pos rest

/-- Scan for the first tab character, as `line->find('\t', start)` does:
returns the segment before the tab and the remainder after it, or `none` when
no tab exists. -/
def splitAtTab : List Char → Option (List Char × List Char)
  | [] => none
  | c :: rest =>
    if c = '\t' then some ([], rest)
    else (splitAtTab rest).map (fun p => (c :: p.1, p.2))

/-- Characters accepted by the C locale `isspace`, which `std::stoll` skips
before parsing. -/
def isSpaceChar (c : Char) : Bool :=
  c == ' ' || c == '\t' || c == '\n' || c == '\x0b' || c == '\x0c' || c == '\r'

/-- Model of `std::stoll` on a field: skip leading whitespace, read an
optional sign, then the longest run of decimal digits. `none` models a thrown
exception: `std::invalid_argument` when no digit follows (in particular on an
empty field), `std::out_of_range` when the value leaves the
`long long` range. -/
def stoll (s : List Char) : Option Int :=
  let s1 := s.dropWhile (fun c => isSpaceChar c)
  let signed : Bool × List Char :=
    match s1 with
    | '-' :: rest => (true, rest)
    | '+' :: rest => (false, rest)
    | _ => (false, s1)
  let ds := signed.2.takeWhile (fun c => c.isDigit)
  if ds = [] then none
  else
    let v : Nat := ds.foldl (fun acc c => acc * 10 + (c.toNat - 48)) 0
    let x : Int := if signed.1 then -(v : Int) else (v : Int)
    if x < -(2 ^ 63) ∨ 2 ^ 63 - 1 < x then none
    else some x

/-- `getSAMChromosomePos` of `hisat_3n_table_mod.cpp`: the `while (field < 4)`
loop unrolled; each iteration requires a tab after the current field, field 2
(0-based) is captured as the chromosome and field 3 is fed to `stoll`.
`Except.error ()` models the exception thrown by `stoll`, which propagates
out of the function and terminates the run in `main`; `Except.ok none` models
the `false` returns (missing tab, or chromosome `"*"` — the caller ignores
the output parameters then); `Except.ok (some (chr, pos))` models the `true`
return. -/
def getSAMChromosomePos (line : List Char) : Except Unit (Option (List Char × Int)) :=
  match splitAtTab line with
  | none => Except.ok none
  | some (_, r1) =>
    match splitAtTab r1 with
    | none => Except.ok none
    | some (_, r2) =>
      match splitAtTab r2 with
      | none => Except.ok none
      | some (chr, r3) =>
        match splitAtTab r3 with
        | none => Except.ok none
        | some (posF, _) =>
          match stoll posF with
          | none => Except.error ()
          | some pos =>
            if chr = ['*'] then Except.ok none
            else Except.ok (some (chr, pos))

/-- Fate of a non-header, non-empty line in the driver loop. -/
inductive LineOutcome where
  | pushed
  | dropped
  | terminated
deriving DecidableEq, Repr

/-- Driver decision for a non-header, non-empty line: when
`getSAMChromosomePos` returns `false` the buffer goes back to the free pool
and the loop continues (the record is dropped); when it returns `true` the
line is pushed onto the line queue; when `stoll` throws, the exception
reaches `main` and the run terminates. -/
def samLineOutcome (line : List Char) : LineOutcome :=
  match getSAMChromosomePos line with
  | Except.error _ => LineOutcome.terminated
  | Except.ok none => LineOutcome.dropped
  | Except.ok (some _) => LineOutcome.pushed

/-- Split a line at every tab character; the resulting segments are the
tab-separated fields (a line with k tabs yields k+1 fields). -/
def tabFields : List Char → List (List Char)
  | [] => [[]]
  | c :: rest =>
    if c = '\t' then [] :: tabFields rest
    else
      match tabFields rest with
      | [] => [[c]]
      | f :: fs => (c :: f) :: fs

/-- Wrap of a mathematical integer into the two's-complement range of a 32-bit
`int`, the effect of the narrowing conversions in `Positions::getIndex`. -/
def toInt32 (x : Int) : Int := (x + 2 ^ 31) % 2 ^ 32 - 2 ^ 31

/-- Wrap of a mathematical integer into the two's-complement range of a 64-bit
`long long int`. -/
def toInt64 (x : Int) : Int := (x + 2 ^ 63) % 2 ^ 64 - 2 ^ 63

/-- `Positions::getIndex`: `int firstPos = refPositions[0]->location` narrows
the 64-bit location to `int`; the subtraction is performed in
`long long int` and the result is narrowed again to the `int` return type. -/
def getIndex (firstLoc targetPos : Int) : Int :=
  toInt32 (toInt64 (targetPos - toInt32 firstLoc))

/-- Reference position as created by `Positions::appendRefPosition`: 1-based
location and strand character (the chromosome name, identical for the whole
window, is omitted). -/
structure RefPos where
  location : Int
  strand : Char
deriving DecidableEq, Repr

/-- State of the reference window that `appendRefPosition` reads and writes:
the running `location`, the previous base `lastBase` and the window
`refPositions`. -/
structure RefState where
  location : Int
  lastBase : Char
  refPositions : List RefPos
deriving DecidableEq, Repr

/-- Model of `refPositions.back()->set('+')` and its variants: overwrite the
strand of the last position. On the empty window the C++ call would be
undefined; the model leaves the list unchanged there. -/
def setLastStrand : List RefPos → Char → List RefPos
  | [], _ => []
  | [p], s => [{ p with strand := s }]
  | p :: q :: rest, s => p :: setLastStrand (q :: rest) s

/-- Body of the `for` loop of `Positions::appendRefPosition`, iterating over
the bases of one uppercased line: each base yields a fresh position at
`location + i + 1` whose strand is assigned by mode, in CG-only mode the
previous position may be upgraded to `'+'`, and `lastBase` follows the
current base. -/
def appendRefLoop (cg : Bool) (cFrom cFromC : Char) (loc : Int) :
    Nat → Char → List RefPos → List Char → List RefPos × Char
  | _, lb, ps, [] => (ps, lb)
  | i, lb, ps, b :: rest =>
    let strand0 : Char :=
      if cg then (if lb = 'C' ∧ b = 'G' then '-' else '?')
      else if b = cFrom then '+' else if b = cFromC then '-' else '?'
    let ps' := if cg ∧ lb = 'C' ∧ b = 'G' then setLastStrand ps '+' else ps
    appendRefLoop cg cFrom cFromC loc (i + 1) b (ps' ++ [⟨loc + i + 1, strand0⟩]) rest

/-- `Positions::appendRefPosition`: run the loop over the line and advance
`location` by the line length. -/
def appendRefPosition (cg : Bool) (cFrom cFromC : Char) (st : RefState) (line : List Char) :
    RefState :=
  let r := appendRefLoop cg cFrom cFromC st.location 0 st.lastBase st.refPositions line
  ⟨st.location + line.length, r.2, r.1⟩

/-- Strand assigned to a base in non-CG mode: the else-if chain of the
source. -/
def nonCGStrand (cFrom cFromC : Char) (b : Char) : Char :=
  if b = cFrom then '+' else if b = cFromC then '-' else '?'

/-- Final strands of the positions created for one line in CG-only mode: a
base gets `'-'` when it is a `'G'` preceded by `'C'`, gets `'+'` when it is a
`'C'` followed by `'G'` within the same line, and `'?'` otherwise. -/
def cgStrandSeq (lb : Char) : List Char → List Char
  | [] => []
  | b :: rest =>
    (if lb = 'C' ∧ b = 'G' then '-'
     else if b = 'C' ∧ rest.head? = some 'G' then '+'
     else '?') :: cgStrandSeq b rest

/-- Positions built from a strand sequence, locations starting at
`loc + i + 1`. -/
def positionsFromStrands (loc : Int) : Nat → List Char → List RefPos
  | _, [] => []
  | i, s :: rest => ⟨loc + i + 1, s⟩ :: positionsFromStrands loc (i + 1) rest

/-- Two consecutive records of the stream share a chromosome and decrease in
position: the situation the spec calls an unsorted input. -/
def HasBadPair (recs : List SamRec) : Prop :=
  ∃ l1 a b l2, recs = l1 ++ a :: b :: l2 ∧ a.chrom = b.chrom ∧ b.pos < a.pos

lemma wcComplement_eq_G_iff (c : Char) : wcComplement c = 'G' ↔ c = 'C' := by
  unfold wcComplement
  split <;> simp_all

/-- C2: the claim asserts that `convert_from_complement` is the Watson-Crick
complement of FROM for every FROM (for FROM = `'A'` it would be `'T'`);
parsing `A,G` instead yields the hard-coded `'G'`. -/
theorem c2_counterexample :
    parseOptionsBaseChange ("A,G".toList) = some ⟨'A', 'G', 'G', 'A'⟩ ∧
    wcComplement 'A' = 'T' ∧
    (⟨'A', 'G', 'G', 'A'⟩ : TableOptions).convertFromComplement ≠ wcComplement 'A' := by
  refine ⟨by decide, by decide, by decide⟩

/-- C2 (amended): whenever `parseOptions` accepts a `--base-change` argument,
`convert_from_complement` is `'G'` and `convert_to_complement` is `'A'`
regardless of FROM and TO; `convert_from_complement` coincides with the
Watson-Crick complement of `convert_from` exactly when `convert_from` is
`'C'`. -/
theorem c2_complements_hardcoded (arg : List Char) (opts : TableOptions)
    (h : parseOptionsBaseChange arg = some opts) :
    opts.convertFromComplement = 'G' ∧ opts.convertToComplement = 'A' ∧
    (opts.convertFromComplement = wcComplement opts.convertFrom ↔ opts.convertFrom = 'C') := by
  unfold parseOptionsBaseChange at h
  rcases hp : parseBaseChange arg with _ | ⟨f, t⟩ <;> rw [hp] at h
  · exact absurd h (by simp)
  · by_cases h0 : f = '0' ∨ t = '0'
    · simp [h0] at h
    · simp only [h0, if_false] at h
      cases h
      refine ⟨rfl, rfl, ?_⟩
      constructor
      · intro hg
        exact (wcComplement_eq_G_iff f).mp hg.symm
      · intro hc
        subst hc
        rfl

/-- Witness for C2: the standard `C,T` base change. -/
theorem c2_complements_hardcoded_witness :
    (⟨'C', 'T', 'G', 'A'⟩ : TableOptions).convertFromComplement = 'G' ∧
    (⟨'C', 'T', 'G', 'A'⟩ : TableOptions).convertToComplement = 'A' ∧
    ((⟨'C', 'T', 'G', 'A'⟩ : TableOptions).convertFromComplement =
        wcComplement (⟨'C', 'T', 'G', 'A'⟩ : TableOptions).convertFrom ↔
      (⟨'C', 'T', 'G', 'A'⟩ : TableOptions).convertFrom = 'C') :=
  c2_complements_hardcoded ("C,T".toList) ⟨'C', 'T', 'G', 'A'⟩ (by decide)

/-- C9: the claim asserts `getIndex` returns the exact mathematical
difference even outside the 32-bit range; with first location `5` and target
`2^31 + 5` the difference `2^31` is truncated to `-2^31`. -/
theorem c9_counterexample :
    getIndex 5 (2 ^ 31 + 5) = -(2 ^ 31) ∧ getIndex 5 (2 ^ 31 + 5) ≠ 2 ^ 31 + 5 - 5 := by
  refine ⟨by decide, by decide⟩

/-- C9 (amended): `getIndex` computes the difference through two's-complement
truncations; it returns the exact mathematical difference whenever the first
location and the difference both fit in a signed 32-bit `int`. -/
theorem c9_getIndex_in_range (first target : Int)
    (h3 : -(2 ^ 31) ≤ target - first) (h4 : target - first < 2 ^ 31) :
    getIndex first target = target - first := by
  unfold getIndex toInt32 toInt64
  omega

/-- Witness for C9: a small in-range instance. -/
theorem c9_getIndex_in_range_witness : getIndex 3 45 = 45 - 3 :=
  c9_getIndex_in_range 3 45 (by decide) (by decide)

lemma hasBadPair_nil : ¬ HasBadPair [] := by
  rintro ⟨l1, a, b, l2, h, -, -⟩
  cases l1 <;> simp at h

lemma hasBadPair_cons (r : SamRec) (rest : List SamRec) :
    HasBadPair (r :: rest) ↔
      (∃ b l2, rest = b :: l2 ∧ b.chrom = r.chrom ∧ b.pos < r.pos) ∨ HasBadPair rest := by
  constructor
  · rintro ⟨l1, a, b, l2, h, hc, hp⟩
    cases l1 with
    | nil =>
      simp only [List.nil_append, List.cons.injEq] at h
      obtain ⟨h1, h2⟩ := h
      subst h1
      exact Or.inl ⟨b, l2, h2, hc.symm, hp⟩
    | cons x l1 =>
      simp only [List.cons_append, List.cons.injEq] at h
      exact Or.inr ⟨l1, a, b, l2, h.2, hc, hp⟩
  · rintro (⟨b, l2, hrest, hc, hp⟩ | ⟨l1, a, b, l2, h, hc, hp⟩)
    · exact ⟨[], r, b, l2, by simp [hrest], hc.symm, hp⟩
    · exact ⟨r :: l1, a, b, l2, by simp [h], hc, hp⟩

lemma driverOrderCheck_iff (recs : List SamRec) : ∀ chrom : String, ∀ lastPos : Nat,
    driverOrderCheck chrom lastPos recs = true ↔
      (∃ b l2, recs = b :: l2 ∧ b.chrom = chrom ∧ b.pos < lastPos) ∨ HasBadPair recs := by
  induction recs with
  | nil =>
    intro chrom lastPos
    simp [driverOrderCheck, hasBadPair_nil]
  | cons s t ih =>
    intro chrom lastPos
    rw [hasBadPair_cons]
    by_cases hc : s.chrom = chrom
    · by_cases hp : s.pos < lastPos
      · have hstep : driverOrderCheck chrom lastPos (s :: t) = true := by
          simp [driverOrderCheck, hc, hp]
        rw [hstep]
        constructor
        · intro _
          exact Or.inl ⟨s, t, rfl, hc, hp⟩
        · intro _
          rfl
      · have hstep : driverOrderCheck chrom lastPos (s :: t) =
            driverOrderCheck chrom s.pos t := by
          simp [driverOrderCheck, hc, hp]
        rw [hstep, ih chrom s.pos]
        constructor
        · rintro (⟨b, l2, hbl, hcc, hpp⟩ | h)
          · exact Or.inr (Or.inl ⟨b, l2, hbl, by rw [hcc]; exact hc.symm, hpp⟩)
          · exact Or.inr (Or.inr h)
        · rintro (⟨b, l2, hbl, hcc, hpp⟩ | ⟨b, l2, hbl, hcc, hpp⟩ | h)
          · injection hbl with h1 h2
            subst h1
            exact absurd hpp hp
          · exact Or.inl ⟨b, l2, hbl, by rw [hcc]; exact hc, hpp⟩
          · exact Or.inr h
    · have hstep : driverOrderCheck chrom lastPos (s :: t) =
          driverOrderCheck s.chrom s.pos t := by
        simp [driverOrderCheck, hc, Nat.not_lt_zero]
      rw [hstep, ih s.chrom s.pos]
      constructor
      · rintro (⟨b, l2, hbl, hcc, hpp⟩ | h)
        · exact Or.inr (Or.inl ⟨b, l2, hbl, hcc, hpp⟩)
        · exact Or.inr (Or.inr h)
      · rintro (⟨b, l2, hbl, hcc, hpp⟩ | ⟨b, l2, hbl, hcc, hpp⟩ | h)
        · injection hbl with h1 h2
          subst h1
          exact absurd hcc hc
        · exact Or.inl ⟨b, l2, hbl, hcc, hpp⟩
        · exact Or.inr h

/-- C7: the driver fails with the unsorted-input error exactly when two
consecutive records of the accepted stream share a chromosome and strictly
decrease in position; a decrease that coincides with a chromosome change never
fails because `lastPos` is reset to `0` before the order check. -/
theorem c7_order_check (c0 : String) (recs : List SamRec) :
    driverOrderCheck c0 0 recs = true ↔ HasBadPair recs := by
  rw [driverOrderCheck_iff recs c0 0]
  simp

lemma tabFields_eq_splitAtTab (l : List Char) :
    tabFields l =
      match splitAtTab l with
      | none => [l]
      | some (f, r) => f :: tabFields r := by
  induction l with
  | nil => rfl
  | cons c rest ih =>
    by_cases hc : c = '\t'
    · simp [tabFields, splitAtTab, hc]
    · simp only [tabFields, splitAtTab, hc, if_false, ite_false]
      rw [ih]
      rcases hs : splitAtTab rest with _ | ⟨f, r⟩
      · simp [hs]
      · simp [hs]

lemma tabFields_ne_nil (l : List Char) : tabFields l ≠ [] := by
  rw [tabFields_eq_splitAtTab]
  rcases splitAtTab l with _ | ⟨f, r⟩ <;> simp

lemma getSAMChromosomePos_spec (line : List Char) :
    getSAMChromosomePos line =
      if 5 ≤ (tabFields line).length then
        match stoll ((tabFields line).getD 3 []) with
        | none => Except.error ()
        | some pos =>
          if (tabFields line).getD 2 [] = ['*'] then Except.ok none
          else Except.ok (some ((tabFields line).getD 2 [], pos))
      else Except.ok none := by
  unfold getSAMChromosomePos
  rcases h0 : splitAtTab line with _ | ⟨f0, r1⟩
  · have ht0 : tabFields line = [line] := by rw [tabFields_eq_splitAtTab, h0]
    simp [ht0]
  · have ht0 : tabFields line = f0 :: tabFields r1 := by rw [tabFields_eq_splitAtTab, h0]
    rcases h1 : splitAtTab r1 with _ | ⟨f1, r2⟩
    · have ht1 : tabFields r1 = [r1] := by rw [tabFields_eq_splitAtTab, h1]
      simp [h1, ht0, ht1]
    · have ht1 : tabFields r1 = f1 :: tabFields r2 := by rw [tabFields_eq_splitAtTab, h1]
      rcases h2 : splitAtTab r2 with _ | ⟨f2, r3⟩
      · have ht2 : tabFields r2 = [r2] := by rw [tabFields_eq_splitAtTab, h2]
        simp [h1, h2, ht0, ht1, ht2]
      · have ht2 : tabFields r2 = f2 :: tabFields r3 := by rw [tabFields_eq_splitAtTab, h2]
        rcases h3 : splitAtTab r3 with _ | ⟨f3, r4⟩
        · have ht3 : tabFields r3 = [r3] := by rw [tabFields_eq_splitAtTab, h3]
          simp [h1, h2, h3, ht0, ht1, ht2, ht3]
        · have ht3 : tabFields r3 = f3 :: tabFields r4 := by
            rw [tabFields_eq_splitAtTab, h3]
          rcases h5 : tabFields r4 with _ | ⟨f4, r5⟩
          · exact absurd h5 (tabFields_ne_nil r4)
          · rcases hst : stoll f3 with _ | pos
            · simp [h1, h2, h3, ht0, ht1, ht2, ht3, h5, hst, List.getD]
            · by_cases hchr : f2 = ['*']
              · simp [h1, h2, h3, ht0, ht1, ht2, ht3, h5, hst, hchr, List.getD]
              · simp [h1, h2, h3, ht0, ht1, ht2, ht3, h5, hst, hchr, List.getD]

/-- C8: the claim says a line with at least 4 tab-separated fields and third
field different from `"*"` is pushed. The 4-field line `a<tab>100<tab>c2<tab>7`
has third field `c2` yet is dropped, because `getSAMChromosomePos` demands a
tab after the fourth field; and the 5-field line `a<tab>b<tab>c2<tab><tab>e`,
which the claim also says is pushed, makes `stoll` throw on its empty fourth
field, terminating the run instead. -/
theorem c8_counterexample :
    4 ≤ (tabFields ("a\t100\tc2\t7".toList)).length ∧
    (tabFields ("a\t100\tc2\t7".toList)).getD 2 [] ≠ ['*'] ∧
    samLineOutcome ("a\t100\tc2\t7".toList) = LineOutcome.dropped ∧
    5 ≤ (tabFields ("a\tb\tc2\t\te".toList)).length ∧
    (tabFields ("a\tb\tc2\t\te".toList)).getD 2 [] ≠ ['*'] ∧
    samLineOutcome ("a\tb\tc2\t\te".toList) = LineOutcome.terminated := by
  refine ⟨by decide, by decide, by decide, by decide, by decide, by decide⟩

/-- C8 (amended): for a non-header, non-empty line the driver drops the
record when the line has fewer than 5 tab-separated fields (fewer than 4 tab
characters); otherwise `stoll` parses the fourth field, and if that fails
(empty or non-numeric after optional whitespace and sign, or out of the
`long long` range) the exception terminates the run, so the record is neither
pushed nor dropped; otherwise the record is dropped exactly when the third
field equals `"*"` and pushed otherwise. -/
theorem c8_line_outcome (line : List Char) :
    (samLineOutcome line = LineOutcome.dropped ↔
      (tabFields line).length < 5 ∨
        (5 ≤ (tabFields line).length ∧ (stoll ((tabFields line).getD 3 [])).isSome ∧
          (tabFields line).getD 2 [] = ['*'])) ∧
    (samLineOutcome line = LineOutcome.pushed ↔
      5 ≤ (tabFields line).length ∧ (stoll ((tabFields line).getD 3 [])).isSome ∧
        (tabFields line).getD 2 [] ≠ ['*']) ∧
    (samLineOutcome line = LineOutcome.terminated ↔
      5 ≤ (tabFields line).length ∧ stoll ((tabFields line).getD 3 []) = none) := by
  have hspec := getSAMChromosomePos_spec line
  by_cases h : 5 ≤ (tabFields line).length
  · rw [if_pos h] at hspec
    rcases hst : stoll ((tabFields line).getD 3 []) with _ | pos
    · rw [hst] at hspec
      have hout : samLineOutcome line = LineOutcome.terminated := by
        unfold samLineOutcome
        rw [hspec]
      refine ⟨?_, ?_, ?_⟩
      · rw [hout]
        constructor
        · intro hcon
          exact absurd hcon (by decide)
        · rintro (hlt | ⟨-, hsome, -⟩)
          · exact absurd hlt (by omega)
          · simp at hsome
      · rw [hout]
        constructor
        · intro hcon
          exact absurd hcon (by decide)
        · rintro ⟨-, hsome, -⟩
          simp at hsome
      · rw [hout]
        exact iff_of_true rfl ⟨h, rfl⟩
    · rw [hst] at hspec
      replace hspec : getSAMChromosomePos line =
          (if (tabFields line).getD 2 [] = ['*'] then Except.ok none
           else Except.ok (some ((tabFields line).getD 2 [], pos))) := hspec
      by_cases hchr : (tabFields line).getD 2 [] = ['*']
      · rw [if_pos hchr] at hspec
        have hout : samLineOutcome line = LineOutcome.dropped := by
          unfold samLineOutcome
          rw [hspec]
        refine ⟨?_, ?_, ?_⟩
        · rw [hout]
          exact iff_of_true rfl (Or.inr ⟨h, rfl, hchr⟩)
        · rw [hout]
          constructor
          · intro hcon
            exact absurd hcon (by decide)
          · rintro ⟨-, -, hne⟩
            exact absurd hchr hne
        · rw [hout]
          constructor
          · intro hcon
            exact absurd hcon (by decide)
          · rintro ⟨-, hnone⟩
            simp at hnone
      · rw [if_neg hchr] at hspec
        have hout : samLineOutcome line = LineOutcome.pushed := by
          unfold samLineOutcome
          rw [hspec]
        refine ⟨?_, ?_, ?_⟩
        · rw [hout]
          constructor
          · intro hcon
            exact absurd hcon (by decide)
          · rintro (hlt | ⟨-, -, hc⟩)
            · exact absurd hlt (by omega)
            · exact absurd hc hchr
        · rw [hout]
          exact iff_of_true rfl ⟨h, rfl, hchr⟩
        · rw [hout]
          constructor
          · intro hcon
            exact absurd hcon (by decide)
          · rintro ⟨-, hnone⟩
            simp at hnone
  · rw [if_neg h] at hspec
    have hout : samLineOutcome line = LineOutcome.dropped := by
      unfold samLineOutcome
      rw [hspec]
    refine ⟨?_, ?_, ?_⟩
    · rw [hout]
      exact iff_of_true rfl (Or.inl (by omega))
    · rw [hout]
      constructor
      · intro hcon
        exact absurd hcon (by decide)
      · rintro ⟨hge, -, -⟩
        exact absurd hge h
    · rw [hout]
      constructor
      · intro hcon
        exact absurd hcon (by decide)
      · rintro ⟨hge, -⟩
        exact absurd hge h

lemma idsSorted_cons {u : UniqueID} {rest : List UniqueID} :
    IDsSorted (u :: rest) ↔
      (∀ v ∈ rest, u.readNameID < v.readNameID) ∧ IDsSorted rest :=
  List.pairwise_cons

lemma lowerBoundIdx_le_length (ids : List UniqueID) (t : Nat) :
    lowerBoundIdx ids t ≤ ids.length := by
  induction ids with
  | nil => simp [lowerBoundIdx]
  | cons u rest ih =>
    simp only [lowerBoundIdx, List.length_cons]
    split <;> omega

lemma lowerBoundIdx_prefix_lt (ids : List UniqueID) (t : Nat) :
    ∀ j, j < lowerBoundIdx ids t → (ids.getD j default).readNameID < t := by
  induction ids with
  | nil => simp [lowerBoundIdx]
  | cons u rest ih =>
    intro j hj
    simp only [lowerBoundIdx] at hj
    by_cases hu : u.readNameID < t
    · rw [if_pos hu] at hj
      cases j with
      | zero => simpa using hu
      | succ j' =>
        rw [List.getD_cons_succ]
        exact ih j' (by omega)
    · rw [if_neg hu] at hj
      omega

lemma lowerBoundIdx_suffix_ge (ids : List UniqueID) (t : Nat) (hs : IDsSorted ids) :
    ∀ j, lowerBoundIdx ids t ≤ j → j < ids.length → t ≤ (ids.getD j default).readNameID := by
  induction ids with
  | nil =>
    intro j _ h
    simp at h
  | cons u rest ih =>
    intro j hj hlen
    rcases idsSorted_cons.mp hs with ⟨hu, hrest⟩
    simp only [lowerBoundIdx] at hj
    by_cases hcase : u.readNameID < t
    · rw [if_pos hcase] at hj
      cases j with
      | zero => omega
      | succ j' =>
        rw [List.getD_cons_succ]
        exact ih hrest j' (by omega) (by simpa using hlen)
    · rw [if_neg hcase] at hj
      cases j with
      | zero =>
        rw [List.getD_cons_zero]
        omega
      | succ j' =>
        rw [List.getD_cons_succ]
        have hj' : j' < rest.length := by simpa using hlen
        have hm : rest.getD j' default ∈ rest := by
          rw [List.getD_eq_getElem rest default hj']
          exact List.getElem_mem hj'
        have := hu _ hm
        omega

lemma sorted_getD_lt (ids : List UniqueID) (hs : IDsSorted ids) (i j : Nat)
    (hij : i < j) (hj : j < ids.length) :
    (ids.getD i default).readNameID < (ids.getD j default).readNameID := by
  have hi : i < ids.length := lt_trans hij hj
  rw [List.getD_eq_getElem ids default hi, List.getD_eq_getElem ids default hj]
  exact List.pairwise_iff_getElem.mp hs i j hi hj hij

lemma getLastD_mem (l : List UniqueID) (h : l ≠ []) : l.getLastD default ∈ l := by
  rw [List.getLastD_eq_getLast?, List.getLast?_eq_getLast_of_ne_nil h]
  simpa using List.getLast_mem h

lemma lastID_cons (a : UniqueID) (rest : List UniqueID) (h : rest ≠ []) :
    lastID (a :: rest) = lastID rest := by
  unfold lastID
  rw [List.getLastD_cons, List.getLastD_eq_getLast?, List.getLastD_eq_getLast?]
  rcases hl : rest.getLast? with _ | b
  · rw [List.getLast?_eq_none_iff] at hl
    exact absurd hl h
  · rfl

lemma le_lastID_of_mem (ids : List UniqueID) (hs : IDsSorted ids) (u : UniqueID)
    (hm : u ∈ ids) : u.readNameID ≤ lastID ids := by
  induction ids with
  | nil => simp at hm
  | cons a rest ih =>
    rcases idsSorted_cons.mp hs with ⟨ha, hrest⟩
    rcases List.mem_cons.mp hm with rfl | hm2
    · cases hr : rest with
      | nil =>
        subst hr
        simp [lastID, List.getLastD_cons]
      | cons b r2 =>
        subst hr
        rw [lastID_cons _ _ (by simp)]
        have hmem := getLastD_mem (b :: r2) (by simp)
        have := ha _ hmem
        unfold lastID
        omega
    · have hne : rest ≠ [] := by
        intro hcon
        subst hcon
        simp at hm2
      rw [lastID_cons _ _ hne]
      exact ih hrest hm2

lemma getLastD_eq_getD_pred (l : List UniqueID) (h : l ≠ []) :
    l.getLastD default = l.getD (l.length - 1) default := by
  induction l with
  | nil => contradiction
  | cons a r ih =>
    cases hr : r with
    | nil =>
      subst hr
      simp [List.getLastD_cons]
    | cons b r2 =>
      subst hr
      have h2 : (b :: r2) ≠ [] := by simp
      have hlen : (a :: b :: r2).length - 1 = ((b :: r2).length - 1) + 1 := by
        simp
      calc (a :: b :: r2).getLastD default
          = (b :: r2).getLastD default := by
            have := lastID_cons a (b :: r2) h2
            rw [List.getLastD_cons, List.getLastD_eq_getLast?, List.getLastD_eq_getLast?]
            rcases hl : (b :: r2).getLast? with _ | c
            · rw [List.getLast?_eq_none_iff] at hl
              exact absurd hl h2
            · rfl
        _ = (b :: r2).getD ((b :: r2).length - 1) default := ih h2
        _ = (a :: b :: r2).getD ((a :: b :: r2).length - 1) default := by
            rw [hlen, List.getD_cons_succ]

lemma lowerBoundIdx_lt_length (ids : List UniqueID) (t : Nat) (hs : IDsSorted ids)
    (hne : ids ≠ []) (hlast : t ≤ lastID ids) : lowerBoundIdx ids t < ids.length := by
  rcases Nat.lt_or_ge (lowerBoundIdx ids t) ids.length with h | h
  · exact h
  · exfalso
    have hlen : 0 < ids.length := List.length_pos.mpr hne
    have hpre := lowerBoundIdx_prefix_lt ids t (ids.length - 1) (by omega)
    have hl : ids.getLastD default = ids.getD (ids.length - 1) default :=
      getLastD_eq_getD_pred ids hne
    unfold lastID at hlast
    rw [hl] at hlast
    omega

lemma lowerBoundIdx_of_found (ids : List UniqueID) (t : Nat) (hs : IDsSorted ids)
    (k : Nat) (hk : k < ids.length) (hkt : (ids.getD k default).readNameID = t) :
    lowerBoundIdx ids t = k := by
  rcases Nat.lt_trichotomy (lowerBoundIdx ids t) k with h | h | h
  · exfalso
    have h1 := lowerBoundIdx_suffix_ge ids t hs (lowerBoundIdx ids t) le_rfl (by omega)
    have h2 := sorted_getD_lt ids hs (lowerBoundIdx ids t) k h hk
    omega
  · exact h
  · exfalso
    have := lowerBoundIdx_prefix_lt ids t k h
    omega

lemma searchReadNameID_found (ids : List UniqueID) (t : Nat) (hne : ids ≠ [])
    (start e : Int) (hle : start ≤ e)
    (hm : (ids.getD ((start + e) / 2).toNat default).readNameID = t) :
    searchReadNameID ids t start e = (start + e) / 2 := by
  rw [searchReadNameID.eq_def]
  simp only [if_neg hne, if_pos hle, hm, if_true, ite_true]

lemma searchReadNameID_goLeft (ids : List UniqueID) (t : Nat) (hne : ids ≠ [])
    (start e : Int) (hle : start ≤ e)
    (hm : t < (ids.getD ((start + e) / 2).toNat default).readNameID) :
    searchReadNameID ids t start e = searchReadNameID ids t start ((start + e) / 2 - 1) := by
  rw [searchReadNameID.eq_def]
  simp only [if_neg hne, if_pos hle]
  rw [if_neg (by omega), if_pos hm]

lemma searchReadNameID_goRight (ids : List UniqueID) (t : Nat) (hne : ids ≠ [])
    (start e : Int) (hle : start ≤ e)
    (hm : (ids.getD ((start + e) / 2).toNat default).readNameID < t) :
    searchReadNameID ids t start e = searchReadNameID ids t ((start + e) / 2 + 1) e := by
  rw [searchReadNameID.eq_def]
  simp only [if_neg hne, if_pos hle]
  rw [if_neg (by omega), if_neg (by omega)]

lemma searchReadNameID_stop (ids : List UniqueID) (t : Nat) (hne : ids ≠ [])
    (start e : Int) (hle : ¬ start ≤ e) :
    searchReadNameID ids t start e = start := by
  rw [searchReadNameID.eq_def]
  simp only [if_neg hne, if_neg hle]

lemma searchIterative_found (ids : List UniqueID) (t : Nat)
    (start e : Int) (hle : start ≤ e)
    (hm : (ids.getD (start + (e - start) / 2).toNat default).readNameID = t) :
    searchReadNameIDIterative ids t start e = start + (e - start) / 2 := by
  rw [searchReadNameIDIterative.eq_def]
  simp only [if_pos hle, hm, if_true, ite_true]

lemma searchIterative_goLeft (ids : List UniqueID) (t : Nat)
    (start e : Int) (hle : start ≤ e)
    (hm : t < (ids.getD (start + (e - start) / 2).toNat default).readNameID) :
    searchReadNameIDIterative ids t start e =
      searchReadNameIDIterative ids t start (start + (e - start) / 2 - 1) := by
  rw [searchReadNameIDIterative.eq_def]
  simp only [if_pos hle]
  rw [if_neg (by omega), if_pos hm]

lemma searchIterative_goRight (ids : List UniqueID) (t : Nat)
    (start e : Int) (hle : start ≤ e)
    (hm : (ids.getD (start + (e - start) / 2).toNat default).readNameID < t) :
    searchReadNameIDIterative ids t start e =
      searchReadNameIDIterative ids t (start + (e - start) / 2 + 1) e := by
  rw [searchReadNameIDIterative.eq_def]
  simp only [if_pos hle]
  rw [if_neg (by omega), if_neg (by omega)]

lemma searchIterative_stop (ids : List UniqueID) (t : Nat)
    (start e : Int) (hle : ¬ start ≤ e) :
    searchReadNameIDIterative ids t start e = start := by
  rw [searchReadNameIDIterative.eq_def]
  simp only [if_neg hle]

lemma searchReadNameID_eq_lowerBound_aux (ids : List UniqueID) (t : Nat) (hs : IDsSorted ids)
    (hne : ids ≠ []) (hlast : t ≤ lastID ids) : ∀ k : Nat, ∀ start e : Int,
    (e + 1 - start).toNat ≤ k → 0 ≤ start → start ≤ (lowerBoundIdx ids t : Int) →
    (lowerBoundIdx ids t : Int) ≤ e + 1 → e ≤ (ids.length : Int) →
    searchReadNameID ids t start e = (lowerBoundIdx ids t : Int) := by
  have hLlt : lowerBoundIdx ids t < ids.length := lowerBoundIdx_lt_length ids t hs hne hlast
  intro k
  induction k with
  | zero =>
    intro start e hk h0 h1 h2 h3
    have hle : ¬ start ≤ e := by omega
    rw [searchReadNameID_stop ids t hne start e hle]
    omega
  | succ k ih =>
    intro start e hk h0 h1 h2 h3
    by_cases hle : start ≤ e
    · have hmidlt : ((start + e) / 2).toNat < ids.length := by omega
      rcases Nat.lt_trichotomy (ids.getD ((start + e) / 2).toNat default).readNameID t
        with hm | hm | hm
      · have hmL : ((start + e) / 2).toNat < lowerBoundIdx ids t := by
          by_contra hcon
          have := lowerBoundIdx_suffix_ge ids t hs ((start + e) / 2).toNat (by omega) hmidlt
          omega
        rw [searchReadNameID_goRight ids t hne start e hle hm]
        refine ih ((start + e) / 2 + 1) e ?_ ?_ ?_ h2 h3 <;> omega
      · rw [searchReadNameID_found ids t hne start e hle hm]
        have h5 : ¬ ((start + e) / 2).toNat < lowerBoundIdx ids t := by
          intro hcon
          have := lowerBoundIdx_prefix_lt ids t _ hcon
          omega
        have h6 : ¬ lowerBoundIdx ids t < ((start + e) / 2).toNat := by
          intro hcon
          have ha := lowerBoundIdx_suffix_ge ids t hs (lowerBoundIdx ids t) le_rfl (by omega)
          have hb := sorted_getD_lt ids hs (lowerBoundIdx ids t) _ hcon hmidlt
          omega
        omega
      · have hmL : lowerBoundIdx ids t ≤ ((start + e) / 2).toNat := by
          by_contra hcon
          have := lowerBoundIdx_prefix_lt ids t ((start + e) / 2).toNat (by omega)
          omega
        rw [searchReadNameID_goLeft ids t hne start e hle hm]
        refine ih start ((start + e) / 2 - 1) ?_ h0 h1 ?_ ?_ <;> omega
    · rw [searchReadNameID_stop ids t hne start e hle]
      omega

lemma searchIterative_eq_lowerBound_aux (ids : List UniqueID) (t : Nat) (hs : IDsSorted ids)
    (hne : ids ≠ []) (hlast : t ≤ lastID ids) : ∀ k : Nat, ∀ start e : Int,
    (e + 1 - start).toNat ≤ k → 0 ≤ start → start ≤ (lowerBoundIdx ids t : Int) →
    (lowerBoundIdx ids t : Int) ≤ e + 1 → e ≤ (ids.length : Int) →
    searchReadNameIDIterative ids t start e = (lowerBoundIdx ids t : Int) := by
  have hLlt : lowerBoundIdx ids t < ids.length := lowerBoundIdx_lt_length ids t hs hne hlast
  intro k
  induction k with
  | zero =>
    intro start e hk h0 h1 h2 h3
    have hle : ¬ start ≤ e := by omega
    rw [searchIterative_stop ids t start e hle]
    omega
  | succ k ih =>
    intro start e hk h0 h1 h2 h3
    by_cases hle : start ≤ e
    · have hmidlt : (start + (e - start) / 2).toNat < ids.length := by omega
      rcases Nat.lt_trichotomy (ids.getD (start + (e - start) / 2).toNat default).readNameID t
        with hm | hm | hm
      · have hmL : (start + (e - start) / 2).toNat < lowerBoundIdx ids t := by
          by_contra hcon
          have := lowerBoundIdx_suffix_ge ids t hs (start + (e - start) / 2).toNat
            (by omega) hmidlt
          omega
        rw [searchIterative_goRight ids t start e hle hm]
        refine ih (start + (e - start) / 2 + 1) e ?_ ?_ ?_ h2 h3 <;> omega
      · rw [searchIterative_found ids t start e hle hm]
        have h5 : ¬ (start + (e - start) / 2).toNat < lowerBoundIdx ids t := by
          intro hcon
          have := lowerBoundIdx_prefix_lt ids t _ hcon
          omega
        have h6 : ¬ lowerBoundIdx ids t < (start + (e - start) / 2).toNat := by
          intro hcon
          have ha := lowerBoundIdx_suffix_ge ids t hs (lowerBoundIdx ids t) le_rfl (by omega)
          have hb := sorted_getD_lt ids hs (lowerBoundIdx ids t) _ hcon hmidlt
          omega
        omega
      · have hmL : lowerBoundIdx ids t ≤ (start + (e - start) / 2).toNat := by
          by_contra hcon
          have := lowerBoundIdx_prefix_lt ids t (start + (e - start) / 2).toNat (by omega)
          omega
        rw [searchIterative_goLeft ids t start e hle hm]
        refine ih start (start + (e - start) / 2 - 1) ?_ h0 h1 ?_ ?_ <;> omega
    · rw [searchIterative_stop ids t start e hle]
      omega

lemma searchReadNameID_eq_lowerBound (ids : List UniqueID) (t : Nat) (hs : IDsSorted ids)
    (hne : ids ≠ []) (hlast : t ≤ lastID ids) :
    searchReadNameID ids t 0 (ids.length : Int) = (lowerBoundIdx ids t : Int) := by
  have hL := lowerBoundIdx_le_length ids t
  exact searchReadNameID_eq_lowerBound_aux ids t hs hne hlast (ids.length + 1) 0 ids.length
    (by omega) (by omega) (by omega) (by omega) (by omega)

lemma searchIterative_eq_lowerBound (ids : List UniqueID) (t : Nat) (hs : IDsSorted ids)
    (hne : ids ≠ []) (hlast : t ≤ lastID ids) :
    searchReadNameIDIterative ids t 0 (ids.length : Int) = (lowerBoundIdx ids t : Int) := by
  have hL := lowerBoundIdx_le_length ids t
  exact searchIterative_eq_lowerBound_aux ids t hs hne hlast (ids.length + 1) 0 ids.length
    (by omega) (by omega) (by omega) (by omega) (by omega)

lemma getD_mem (l : List UniqueID) (k : Nat) (hk : k < l.length) : l.getD k default ∈ l := by
  rw [List.getD_eq_getElem l default hk]
  exact List.getElem_mem hk

lemma get?_eq_some_getD (l : List UniqueID) (k : Nat) (hk : k < l.length) :
    l.get? k = some (l.getD k default) := by
  rw [List.get?_eq_getElem?, List.getElem?_eq_getElem hk, List.getD_eq_getElem l default hk]

lemma lowerBoundIdx_eq_length_of_all_lt (ids : List UniqueID) (t : Nat)
    (h : ∀ u ∈ ids, u.readNameID < t) : lowerBoundIdx ids t = ids.length := by
  induction ids with
  | nil => rfl
  | cons u rest ih =>
    have hu : u.readNameID < t := h u (by simp)
    simp only [lowerBoundIdx, if_pos hu, List.length_cons]
    rw [ih (fun v hv => h v (by simp [hv]))]

/-- Behaviour of `appendReadNameID` when an entry with the requested id is
already present in the sorted `uniqueIDs` vector. -/
lemma appendReadNameID_found (st : PosState) (id : Nat) (conv : Bool) (q : Char)
    (u : UniqueID) (k : Nat) (hs : IDsSorted st.uniqueIDs)
    (hk : st.uniqueIDs.get? k = some u) (hid : u.readNameID = id) :
    appendReadNameID st id conv q =
      (if u.removed then (st, false)
       else if u.isConverted ≠ conv then
         (⟨(if u.isConverted then eraseFirstQual st.convertedQualities q
            else st.convertedQualities),
           (if u.isConverted then st.unconvertedQualities
            else eraseFirstQual st.unconvertedQualities q),
           st.uniqueIDs.set k { u with removed := true }⟩, false)
       else (st, false)) := by
  have hk' : st.uniqueIDs[k]? = some u := by rw [← List.get?_eq_getElem?]; exact hk
  obtain ⟨hkn, hgetelem⟩ := List.getElem?_eq_some.mp hk'
  have hgetd : st.uniqueIDs.getD k default = u := by
    rw [List.getD_eq_getElem _ default hkn, hgetelem]
  have hmem : u ∈ st.uniqueIDs := by
    rw [← hgetelem]
    exact List.getElem_mem hkn
  have hlastle : id ≤ lastID st.uniqueIDs := by
    have := le_lastID_of_mem _ hs u hmem
    omega
  have hne : st.uniqueIDs ≠ [] := by
    intro hcon
    rw [hcon] at hkn
    simp at hkn
  have hguard : ¬ (st.uniqueIDs.length = 0 ∨ lastID st.uniqueIDs < id) := by
    push_neg
    constructor
    · have := List.length_pos.mpr hne
      omega
    · omega
  have hL : lowerBoundIdx st.uniqueIDs id = k :=
    lowerBoundIdx_of_found _ id hs k hkn (by rw [hgetd, hid])
  have hsearch := searchReadNameID_eq_lowerBound st.uniqueIDs id hs hne hlastle
  unfold appendReadNameID
  rw [if_neg hguard]
  simp only [hsearch, hL, Int.toNat_natCast]
  rw [hk]
  simp only [hid, if_pos rfl, ite_true]
  by_cases hrem : u.removed
  · simp [hrem]
  · by_cases hcv : u.isConverted ≠ conv
    · simp only [hrem, if_false, ite_false, hcv, if_true, ite_true]
      by_cases hic : u.isConverted
      · simp [hic]
      · simp [hic]
    · simp [hrem, hcv]

/-- Behaviour of `appendReadNameID` when no entry with the requested id is
present: the new entry is inserted at the `lower_bound` index (which the
binary searches also compute) and `true` is returned. -/
lemma appendReadNameID_fresh (st : PosState) (id : Nat) (conv : Bool) (q : Char)
    (hs : IDsSorted st.uniqueIDs) (hfresh : ∀ u ∈ st.uniqueIDs, u.readNameID ≠ id) :
    appendReadNameID st id conv q =
      ({ st with
          uniqueIDs :=
            st.uniqueIDs.insertIdx (lowerBoundIdx st.uniqueIDs id) ⟨id, conv, q, false⟩ },
        true) := by
  by_cases hguard : st.uniqueIDs.length = 0 ∨ lastID st.uniqueIDs < id
  · have hL : lowerBoundIdx st.uniqueIDs id = st.uniqueIDs.length := by
      apply lowerBoundIdx_eq_length_of_all_lt
      intro u hu
      rcases hguard with h0 | h0
      · rw [List.length_eq_zero.mp h0] at hu
        simp at hu
      · have hne : st.uniqueIDs ≠ [] := by
          intro hcon
          rw [hcon] at hu
          simp at hu
        have := le_lastID_of_mem _ hs u hu
        omega
    unfold appendReadNameID
    rw [if_pos hguard, hL, List.insertIdx_length_self]
  · push_neg at hguard
    obtain ⟨hlen, hlast⟩ := hguard
    have hne : st.uniqueIDs ≠ [] := by
      intro hcon
      rw [hcon] at hlen
      simp at hlen
    have hlle : id ≤ lastID st.uniqueIDs := by omega
    have hsearch := searchReadNameID_eq_lowerBound st.uniqueIDs id hs hne hlle
    have hLlt := lowerBoundIdx_lt_length st.uniqueIDs id hs hne hlle
    have hget := get?_eq_some_getD st.uniqueIDs (lowerBoundIdx st.uniqueIDs id) hLlt
    have hne2 : (st.uniqueIDs.getD (lowerBoundIdx st.uniqueIDs id) default).readNameID ≠ id :=
      hfresh _ (getD_mem st.uniqueIDs (lowerBoundIdx st.uniqueIDs id) hLlt)
    unfold appendReadNameID
    rw [if_neg (by push_neg; exact ⟨hlen, by omega⟩)]
    simp only [hsearch, Int.toNat_natCast]
    rw [hget]
    simp only [if_neg hne2]

lemma insertIdx_lowerBound_eq_orderedInsert (x : UniqueID) (ids : List UniqueID) :
    ids.insertIdx (lowerBoundIdx ids x.readNameID) x =
      List.orderedInsert (fun a b : UniqueID => a.readNameID ≤ b.readNameID) x ids := by
  induction ids with
  | nil => rfl
  | cons u rest ih =>
    by_cases hu : u.readNameID < x.readNameID
    · simp only [lowerBoundIdx, if_pos hu, List.orderedInsert,
        if_neg (by omega : ¬ x.readNameID ≤ u.readNameID), List.insertIdx_succ_cons]
      rw [ih]
    · simp only [lowerBoundIdx, if_neg hu, List.orderedInsert,
        if_pos (by omega : x.readNameID ≤ u.readNameID), List.insertIdx_zero]

lemma insertIdx_lowerBound_eq_orderedInsert' (t : Nat) (x : UniqueID) (hx : x.readNameID = t)
    (ids : List UniqueID) :
    ids.insertIdx (lowerBoundIdx ids t) x =
      List.orderedInsert (fun a b : UniqueID => a.readNameID ≤ b.readNameID) x ids := by
  subst hx
  exact insertIdx_lowerBound_eq_orderedInsert x ids

lemma idsSorted_orderedInsert (x : UniqueID) (ids : List UniqueID) (hs : IDsSorted ids)
    (hfresh : ∀ u ∈ ids, u.readNameID ≠ x.readNameID) :
    IDsSorted (List.orderedInsert (fun a b : UniqueID => a.readNameID ≤ b.readNameID) x ids) := by
  induction ids with
  | nil =>
    simp only [List.orderedInsert]
    exact List.pairwise_cons.mpr ⟨by simp, List.Pairwise.nil⟩
  | cons u rest ih =>
    rcases idsSorted_cons.mp hs with ⟨hu, hrest⟩
    have hune : u.readNameID ≠ x.readNameID := hfresh u (by simp)
    by_cases hle : x.readNameID ≤ u.readNameID
    · simp only [List.orderedInsert, if_pos hle]
      refine idsSorted_cons.mpr ⟨?_, hs⟩
      intro v hv
      rcases List.mem_cons.mp hv with rfl | hv2
      · omega
      · have := hu v hv2
        omega
    · simp only [List.orderedInsert, if_neg hle]
      refine idsSorted_cons.mpr ⟨?_, ih hrest (fun v hv => hfresh v (by simp [hv]))⟩
      intro v hv
      rcases (List.mem_orderedInsert _).mp hv with rfl | hv2
      · omega
      · exact hu v hv2

lemma idsSorted_set_removed (ids : List UniqueID) (hs : IDsSorted ids) (k : Nat)
    (u : UniqueID) (hk : ids.get? k = some u) :
    IDsSorted (ids.set k { u with removed := true }) := by
  have hk2 : ids[k]? = some u := by rw [← List.get?_eq_getElem?]; exact hk
  obtain ⟨hkn, hgetelem⟩ := List.getElem?_eq_some.mp hk2
  apply List.pairwise_iff_getElem.mpr
  intro i j hi hj hij
  have hi' : i < ids.length := by simpa using hi
  have hj' : j < ids.length := by simpa using hj
  rw [List.getElem_set, List.getElem_set]
  have horig := List.pairwise_iff_getElem.mp hs i j hi' hj' hij
  by_cases hki : k = i <;> by_cases hkj : k = j
  · omega
  · simp only [if_pos hki, if_neg hkj]
    subst hki
    rw [hgetelem] at horig
    exact horig
  · simp only [if_neg hki, if_pos hkj]
    subst hkj
    rw [hgetelem] at horig
    exact horig
  · simp only [if_neg hki, if_neg hkj]
    exact horig

/-- Effect of `appendBase` when the read id is not yet present: the entry is
inserted and the quality is appended to the string selected by the flag. -/
lemma appendBase_fresh (st : PosState) (id : Nat) (conv : Bool) (q : Char)
    (hs : IDsSorted st.uniqueIDs) (hfresh : ∀ u ∈ st.uniqueIDs, u.readNameID ≠ id) :
    appendBase st id conv q =
      ⟨st.convertedQualities ++ (if conv then [q] else []),
       st.unconvertedQualities ++ (if conv then [] else [q]),
       st.uniqueIDs.insertIdx (lowerBoundIdx st.uniqueIDs id) ⟨id, conv, q, false⟩⟩ := by
  unfold appendBase
  rw [appendReadNameID_fresh st id conv q hs hfresh]
  cases conv <;> simp

/-- Effect of `appendBase` when the entry is present but already removed:
no change. -/
lemma appendBase_found_removed (st : PosState) (id : Nat) (conv : Bool) (q : Char)
    (u : UniqueID) (k : Nat) (hs : IDsSorted st.uniqueIDs)
    (hk : st.uniqueIDs.get? k = some u) (hid : u.readNameID = id)
    (hrem : u.removed = true) : appendBase st id conv q = st := by
  unfold appendBase
  rw [appendReadNameID_found st id conv q u k hs hk hid]
  simp [hrem]

/-- Effect of `appendBase` when the entry is present, not removed, and carries
the same converted flag: no change (first observation wins). -/
lemma appendBase_found_same (st : PosState) (id : Nat) (conv : Bool) (q : Char)
    (u : UniqueID) (k : Nat) (hs : IDsSorted st.uniqueIDs)
    (hk : st.uniqueIDs.get? k = some u) (hid : u.readNameID = id)
    (hrem : u.removed = false) (hconv : u.isConverted = conv) :
    appendBase st id conv q = st := by
  unfold appendBase
  rw [appendReadNameID_found st id conv q u k hs hk hid]
  simp [hrem, hconv]

/-- Effect of `appendBase` when the entry is present, not removed, and carries
the opposite converted flag: the entry is marked removed, the first occurrence
of the NEW observation quality `q` is erased from the string of the stored
flag (nothing is erased when `q` does not occur there), and nothing is
appended. -/
lemma appendBase_mismatch (st : PosState) (id : Nat) (conv : Bool) (q : Char)
    (u : UniqueID) (k : Nat) (hs : IDsSorted st.uniqueIDs)
    (hk : st.uniqueIDs.get? k = some u) (hid : u.readNameID = id)
    (hrem : u.removed = false) (hconv : u.isConverted = !conv) :
    appendBase st id conv q =
      ⟨(if u.isConverted then eraseFirstQual st.convertedQualities q
        else st.convertedQualities),
       (if u.isConverted then st.unconvertedQualities
        else eraseFirstQual st.unconvertedQualities q),
       st.uniqueIDs.set k { u with removed := true }⟩ := by
  have hne : u.isConverted ≠ conv := by
    rw [hconv]
    cases conv <;> simp
  unfold appendBase
  rw [appendReadNameID_found st id conv q u k hs hk hid]
  simp [hrem, hne]

/-- C10: on a sorted `uniqueIDs` vector the recursive binary search of
`position_3n_table_backup.h`, the iterative one of
`position_3n_table_backup2.h` and the `std::lower_bound` of
`position_backup.h` return the same index whenever they are invoked
(non-empty vector, target not above the last id), and consequently the three
`appendReadNameID` variants produce identical states and return values. -/
theorem c10_search_equivalence (st : PosState) (id : Nat) (conv : Bool) (q : Char)
    (hs : IDsSorted st.uniqueIDs) :
    appendReadNameID st id conv q = appendReadNameIDIterative st id conv q ∧
    appendReadNameID st id conv q = appendReadNameIDLB st id conv q ∧
    (st.uniqueIDs ≠ [] → id ≤ lastID st.uniqueIDs →
      searchReadNameID st.uniqueIDs id 0 (st.uniqueIDs.length : Int) =
        searchReadNameIDIterative st.uniqueIDs id 0 (st.uniqueIDs.length : Int) ∧
      searchReadNameID st.uniqueIDs id 0 (st.uniqueIDs.length : Int) =
        (lowerBoundIdx st.uniqueIDs id : Int)) := by
  refine ⟨?_, ?_, ?_⟩
  · by_cases hguard : st.uniqueIDs.length = 0 ∨ lastID st.uniqueIDs < id
    · unfold appendReadNameID appendReadNameIDIterative
      rw [if_pos hguard, if_pos hguard]
    · have hne : st.uniqueIDs ≠ [] := by
        intro hcon
        rw [hcon] at hguard
        simp at hguard
      have hlle : id ≤ lastID st.uniqueIDs := by
        push_neg at hguard
        omega
      have hsr := searchReadNameID_eq_lowerBound st.uniqueIDs id hs hne hlle
      have hsi := searchIterative_eq_lowerBound st.uniqueIDs id hs hne hlle
      unfold appendReadNameID appendReadNameIDIterative
      rw [if_neg hguard, if_neg hguard]
      simp only [hsr, hsi]
  · by_cases hguard : st.uniqueIDs.length = 0 ∨ lastID st.uniqueIDs < id
    · unfold appendReadNameID appendReadNameIDLB
      rw [if_pos hguard, if_pos hguard]
    · have hne : st.uniqueIDs ≠ [] := by
        intro hcon
        rw [hcon] at hguard
        simp at hguard
      have hlle : id ≤ lastID st.uniqueIDs := by
        push_neg at hguard
        omega
      have hsr := searchReadNameID_eq_lowerBound st.uniqueIDs id hs hne hlle
      have hLlt := lowerBoundIdx_lt_length st.uniqueIDs id hs hne hlle
      have hget := get?_eq_some_getD st.uniqueIDs (lowerBoundIdx st.uniqueIDs id) hLlt
      unfold appendReadNameID appendReadNameIDLB
      rw [if_neg hguard, if_neg hguard]
      simp only [hsr, Int.toNat_natCast]
      rw [hget]
  · intro hne hlle
    have hsr := searchReadNameID_eq_lowerBound st.uniqueIDs id hs hne hlle
    have hsi := searchIterative_eq_lowerBound st.uniqueIDs id hs hne hlle
    rw [hsr, hsi]
    exact ⟨rfl, rfl⟩

/-- Witness for C10: two sorted entries, a target between them. -/
theorem c10_search_equivalence_witness :
    (appendReadNameID ⟨[], [], [⟨3, true, 'I', false⟩, ⟨7, false, 'F', false⟩]⟩ 5 true 'J' =
      appendReadNameIDIterative ⟨[], [], [⟨3, true, 'I', false⟩, ⟨7, false, 'F', false⟩]⟩
        5 true 'J') ∧
    (appendReadNameID ⟨[], [], [⟨3, true, 'I', false⟩, ⟨7, false, 'F', false⟩]⟩ 5 true 'J' =
      appendReadNameIDLB ⟨[], [], [⟨3, true, 'I', false⟩, ⟨7, false, 'F', false⟩]⟩
        5 true 'J') ∧
    (([⟨3, true, 'I', false⟩, ⟨7, false, 'F', false⟩] : List UniqueID) ≠ [] →
      5 ≤ lastID [⟨3, true, 'I', false⟩, ⟨7, false, 'F', false⟩] →
      searchReadNameID [⟨3, true, 'I', false⟩, ⟨7, false, 'F', false⟩] 5 0 2 =
        searchReadNameIDIterative [⟨3, true, 'I', false⟩, ⟨7, false, 'F', false⟩] 5 0 2 ∧
      searchReadNameID [⟨3, true, 'I', false⟩, ⟨7, false, 'F', false⟩] 5 0 2 =
        (lowerBoundIdx [⟨3, true, 'I', false⟩, ⟨7, false, 'F', false⟩] 5 : Int)) :=
  c10_search_equivalence ⟨[], [], [⟨3, true, 'I', false⟩, ⟨7, false, 'F', false⟩]⟩
    5 true 'J' (by decide)

/-- C5: first observation wins. If a non-removed entry for the read is present
with the same converted flag, any further `appendBase` with that flag is a
no-op regardless of quality; in particular applying the same observation twice
from any sorted state equals applying it once. -/
theorem c5_first_observation_wins :
    (∀ (st : PosState) (id : Nat) (conv : Bool) (q' : Char) (u : UniqueID) (k : Nat),
      IDsSorted st.uniqueIDs → st.uniqueIDs.get? k = some u → u.readNameID = id →
      u.removed = false → u.isConverted = conv →
      appendBase st id conv q' = st) ∧
    (∀ (st : PosState) (id : Nat) (conv : Bool) (q : Char), IDsSorted st.uniqueIDs →
      appendBase (appendBase st id conv q) id conv q = appendBase st id conv q) := by
  constructor
  · intro st id conv q' u k hs hk hid hrem hconv
    exact appendBase_found_same st id conv q' u k hs hk hid hrem hconv
  · intro st id conv q hs
    by_cases hmem : ∃ u ∈ st.uniqueIDs, u.readNameID = id
    · obtain ⟨u, hu, huid⟩ := hmem
      obtain ⟨k, hk⟩ := List.get?_of_mem hu
      by_cases hrem : u.removed
      · have h1 := appendBase_found_removed st id conv q u k hs hk huid hrem
        rw [h1, h1]
      · by_cases hconv : u.isConverted = conv
        · have h1 := appendBase_found_same st id conv q u k hs hk huid
            (by simpa using hrem) hconv
          rw [h1, h1]
        · have hconv2 : u.isConverted = !conv := by
            cases hcv : u.isConverted <;> cases hcc : conv <;> simp_all
          have h1 := appendBase_mismatch st id conv q u k hs hk huid
            (by simpa using hrem) hconv2
          rw [h1]
          have hklt : k < st.uniqueIDs.length := by
            have hk2 : st.uniqueIDs[k]? = some u := by
              rw [← List.get?_eq_getElem?]
              exact hk
            exact (List.getElem?_eq_some.mp hk2).1
          have hget2 : (st.uniqueIDs.set k { u with removed := true }).get?  k =
              some { u with removed := true } := by
            rw [List.get?_eq_getElem?]
            exact List.getElem?_set_self (by simpa using hklt)
          have hs2 : IDsSorted (st.uniqueIDs.set k { u with removed := true }) :=
            idsSorted_set_removed st.uniqueIDs hs k u hk
          exact appendBase_found_removed _ id conv q { u with removed := true } k hs2
            hget2 huid rfl
    · push_neg at hmem
      have h1 := appendBase_fresh st id conv q hs hmem
      rw [h1]
      have hs2 : IDsSorted (st.uniqueIDs.insertIdx (lowerBoundIdx st.uniqueIDs id)
          ⟨id, conv, q, false⟩) := by
        rw [insertIdx_lowerBound_eq_orderedInsert' id ⟨id, conv, q, false⟩ rfl]
        exact idsSorted_orderedInsert _ _ hs (fun v hv => hmem v hv)
      have hmem2 : (⟨id, conv, q, false⟩ : UniqueID) ∈
          st.uniqueIDs.insertIdx (lowerBoundIdx st.uniqueIDs id) ⟨id, conv, q, false⟩ := by
        rw [insertIdx_lowerBound_eq_orderedInsert' id ⟨id, conv, q, false⟩ rfl]
        exact (List.mem_orderedInsert _).mpr (Or.inl rfl)
      obtain ⟨k, hk⟩ := List.get?_of_mem hmem2
      exact appendBase_found_same _ id conv q ⟨id, conv, q, false⟩ k hs2 hk rfl rfl rfl

/-- Witness for C5: a second converted observation of read 7 with a different
quality leaves the state unchanged. -/
theorem c5_first_observation_wins_witness :
    appendBase ⟨['I'], [], [⟨7, true, 'I', false⟩]⟩ 7 true 'J' =
      ⟨['I'], [], [⟨7, true, 'I', false⟩]⟩ :=
  c5_first_observation_wins.1 ⟨['I'], [], [⟨7, true, 'I', false⟩]⟩ 7 true 'J'
    ⟨7, true, 'I', false⟩ 0 (by decide) (by decide) rfl rfl rfl

/-- C1 (amended): on a conflicting observation the entry is marked removed and
the first occurrence of the NEW observation quality is erased from the quality
string of the stored flag; if that character does not occur there, nothing is
erased. Nothing is appended. -/
theorem c1_retraction_erases_new_qual (st : PosState) (id : Nat) (conv : Bool) (q' : Char)
    (u : UniqueID) (k : Nat) (hs : IDsSorted st.uniqueIDs)
    (hk : st.uniqueIDs.get? k = some u) (hid : u.readNameID = id)
    (hrem : u.removed = false) (hconv : u.isConverted = !conv) :
    appendBase st id conv q' =
      ⟨(if u.isConverted then eraseFirstQual st.convertedQualities q'
        else st.convertedQualities),
       (if u.isConverted then st.unconvertedQualities
        else eraseFirstQual st.unconvertedQualities q'),
       st.uniqueIDs.set k { u with removed := true }⟩ :=
  appendBase_mismatch st id conv q' u k hs hk hid hrem hconv

/-- Witness for C1 (amended): read 7 stored converted quality `I`, now
unconverted `F`: the erase targets `F`, finds nothing, and the converted
string keeps its `I`. -/
theorem c1_retraction_erases_new_qual_witness :
    appendBase ⟨['I'], [], [⟨7, true, 'I', false⟩]⟩ 7 false 'F' =
      ⟨['I'], [], [⟨7, true, 'I', true⟩]⟩ :=
  c1_retraction_erases_new_qual ⟨['I'], [], [⟨7, true, 'I', false⟩]⟩ 7 false 'F'
    ⟨7, true, 'I', false⟩ 0 (by decide) (by decide) rfl rfl rfl

lemma run_IF : applyAll initialPosition [⟨7, true, 'I'⟩, ⟨7, false, 'F'⟩] =
    ⟨['I'], [], [⟨7, true, 'I', true⟩]⟩ := by
  have h1 : appendBase initialPosition 7 true 'I' = ⟨['I'], [], [⟨7, true, 'I', false⟩]⟩ := by
    have := appendBase_fresh initialPosition 7 true 'I' List.Pairwise.nil
      (by intro u hu; simp [initialPosition] at hu)
    simpa [initialPosition] using this
  have h2 : appendBase (⟨['I'], [], [⟨7, true, 'I', false⟩]⟩ : PosState) 7 false 'F' =
      ⟨['I'], [], [⟨7, true, 'I', true⟩]⟩ := by
    have := appendBase_mismatch (⟨['I'], [], [⟨7, true, 'I', false⟩]⟩ : PosState) 7 false 'F'
      ⟨7, true, 'I', false⟩ 0 (by decide) (by decide) rfl rfl rfl
    simpa [eraseFirstQual] using this
  show appendBase (appendBase initialPosition 7 true 'I') 7 false 'F' = _
  rw [h1, h2]

lemma run_FI : applyAll initialPosition [⟨7, false, 'F'⟩, ⟨7, true, 'I'⟩] =
    ⟨[], ['F'], [⟨7, false, 'F', true⟩]⟩ := by
  have h1 : appendBase initialPosition 7 false 'F' = ⟨[], ['F'], [⟨7, false, 'F', false⟩]⟩ := by
    have := appendBase_fresh initialPosition 7 false 'F' List.Pairwise.nil
      (by intro u hu; simp [initialPosition] at hu)
    simpa [initialPosition] using this
  have h2 : appendBase (⟨[], ['F'], [⟨7, false, 'F', false⟩]⟩ : PosState) 7 true 'I' =
      ⟨[], ['F'], [⟨7, false, 'F', true⟩]⟩ := by
    have := appendBase_mismatch (⟨[], ['F'], [⟨7, false, 'F', false⟩]⟩ : PosState) 7 true 'I'
      ⟨7, false, 'F', false⟩ 0 (by decide) (by decide) rfl rfl rfl
    simpa [eraseFirstQual] using this
  show appendBase (appendBase initialPosition 7 false 'F') 7 true 'I' = _
  rw [h1, h2]

/-- C1: the claim predicts that after converted `I` then unconverted `F` on
read 7 both quality strings are empty (the stored quality `I` removed); the
code instead searches for the NEW quality `F`, finds nothing, and leaves the
converted string as `I`. -/
theorem c1_counterexample :
    (applyAll initialPosition [⟨7, true, 'I'⟩, ⟨7, false, 'F'⟩]).convertedQualities = ['I'] ∧
    (applyAll initialPosition [⟨7, true, 'I'⟩, ⟨7, false, 'F'⟩]).unconvertedQualities = [] ∧
    (applyAll initialPosition [⟨7, true, 'I'⟩, ⟨7, false, 'F'⟩]).convertedQualities ≠ [] := by
  rw [run_IF]
  exact ⟨rfl, rfl, by decide⟩

/-- Applying a list of observations with ids all fresh for the state and
pairwise distinct: each observation inserts its entry and appends its quality,
so the final quality strings extend the initial ones by the qualities of the
converted respectively unconverted observations, and the removed entries are
untouched. -/
lemma applyAll_fresh (l : List Obs) : ∀ st : PosState, IDsSorted st.uniqueIDs →
    (∀ o ∈ l, ∀ u ∈ st.uniqueIDs, u.readNameID ≠ o.readNameID) →
    (l.map Obs.readNameID).Nodup →
    (applyAll st l).convertedQualities =
      st.convertedQualities ++ (l.filter (fun o => o.converted)).map Obs.qual ∧
    (applyAll st l).unconvertedQualities =
      st.unconvertedQualities ++ (l.filter (fun o => !o.converted)).map Obs.qual ∧
    ((applyAll st l).uniqueIDs.filter (fun e => e.removed)).Perm
      (st.uniqueIDs.filter (fun e => e.removed)) := by
  induction l with
  | nil =>
    intro st hs hfresh hnodup
    exact ⟨by simp [applyAll], by simp [applyAll], by simp [applyAll]⟩
  | cons o rest ih =>
    intro st hs hfresh hnodup
    have hfo : ∀ u ∈ st.uniqueIDs, u.readNameID ≠ o.readNameID := hfresh o (by simp)
    have happ := appendBase_fresh st o.readNameID o.converted o.qual hs hfo
    have happly : applyAll st (o :: rest) =
        applyAll (appendBase st o.readNameID o.converted o.qual) rest := by
      simp [applyAll, applyObs, List.foldl_cons]
    have hperm1 : (appendBase st o.readNameID o.converted o.qual).uniqueIDs.Perm
        ((⟨o.readNameID, o.converted, o.qual, false⟩ : UniqueID) :: st.uniqueIDs) := by
      rw [happ]
      rw [insertIdx_lowerBound_eq_orderedInsert' o.readNameID _ rfl]
      exact List.perm_orderedInsert _ _ _
    have hs1 : IDsSorted (appendBase st o.readNameID o.converted o.qual).uniqueIDs := by
      rw [happ]
      rw [insertIdx_lowerBound_eq_orderedInsert' o.readNameID _ rfl]
      exact idsSorted_orderedInsert _ _ hs hfo
    have hnotin : o.readNameID ∉ rest.map Obs.readNameID := by
      rw [List.map_cons, List.nodup_cons] at hnodup
      exact hnodup.1
    have hfresh1 : ∀ o' ∈ rest, ∀ u ∈ (appendBase st o.readNameID o.converted o.qual).uniqueIDs,
        u.readNameID ≠ o'.readNameID := by
      intro o' ho' u hu
      have hu2 := hperm1.subset hu
      rcases List.mem_cons.mp hu2 with rfl | hu3
      · intro hcon
        have hcon' : o.readNameID = o'.readNameID := hcon
        exact hnotin (hcon' ▸ List.mem_map_of_mem Obs.readNameID ho')
      · exact hfresh o' (by simp [ho']) u hu3
    have hnodup1 : (rest.map Obs.readNameID).Nodup := by
      rw [List.map_cons, List.nodup_cons] at hnodup
      exact hnodup.2
    obtain ⟨ihc, ihu, ihr⟩ := ih (appendBase st o.readNameID o.converted o.qual) hs1
      hfresh1 hnodup1
    refine ⟨?_, ?_, ?_⟩
    · rw [happly, ihc, happ]
      cases hoc : o.converted <;>
        simp [List.filter_cons, hoc, List.append_assoc]
    · rw [happly, ihu, happ]
      cases hoc : o.converted <;>
        simp [List.filter_cons, hoc, List.append_assoc]
    · rw [happly]
      refine ihr.trans ?_
      have hstep := hperm1.filter (fun e => e.removed)
      simpa using hstep

/-- C3 (counterexample): the two orders of the conflicting pair of
observations of read 7 give different observable triples, refuting order
commutativity for duplicate read ids. -/
theorem c3_counterexample :
    ([⟨7, true, 'I'⟩, ⟨7, false, 'F'⟩] : List Obs).Perm [⟨7, false, 'F'⟩, ⟨7, true, 'I'⟩] ∧
    obsTriple (applyAll initialPosition [⟨7, true, 'I'⟩, ⟨7, false, 'F'⟩]) ≠
      obsTriple (applyAll initialPosition [⟨7, false, 'F'⟩, ⟨7, true, 'I'⟩]) := by
  refine ⟨by decide, ?_⟩
  rw [run_IF, run_FI]
  decide

/-- C3 (amended): order commutativity of the observable triple holds for
observation sets whose read ids are pairwise distinct. -/
theorem c3_commutative (l1 l2 : List Obs) (hperm : l1.Perm l2)
    (hnodup : (l1.map Obs.readNameID).Nodup) :
    obsTriple (applyAll initialPosition l1) = obsTriple (applyAll initialPosition l2) := by
  have hnodup2 : (l2.map Obs.readNameID).Nodup :=
    ((hperm.map Obs.readNameID).nodup_iff).mp hnodup
  obtain ⟨hc1, hu1, hr1⟩ := applyAll_fresh l1 initialPosition List.Pairwise.nil
    (by intro o ho u hu; simp [initialPosition] at hu) hnodup
  obtain ⟨hc2, hu2, hr2⟩ := applyAll_fresh l2 initialPosition List.Pairwise.nil
    (by intro o ho u hu; simp [initialPosition] at hu) hnodup2
  have hr1n : (applyAll initialPosition l1).uniqueIDs.filter (fun e => e.removed) = [] := by
    have := hr1
    simp only [initialPosition, List.filter_nil] at this
    exact List.perm_nil.mp this
  have hr2n : (applyAll initialPosition l2).uniqueIDs.filter (fun e => e.removed) = [] := by
    have := hr2
    simp only [initialPosition, List.filter_nil] at this
    exact List.perm_nil.mp this
  unfold obsTriple
  rw [hc1, hc2, hu1, hu2, hr1n, hr2n]
  simp only [initialPosition, List.nil_append, List.map_nil, Prod.mk.injEq]
  refine ⟨?_, ?_, trivial⟩
  · exact Multiset.coe_eq_coe.mpr ((hperm.filter _).map _)
  · exact Multiset.coe_eq_coe.mpr ((hperm.filter _).map _)

/-- Witness for C3 (amended): two distinct reads applied in both orders. -/
theorem c3_commutative_witness :
    obsTriple (applyAll initialPosition [⟨1, true, 'I'⟩, ⟨2, false, 'F'⟩]) =
      obsTriple (applyAll initialPosition [⟨2, false, 'F'⟩, ⟨1, true, 'I'⟩]) :=
  c3_commutative [⟨1, true, 'I'⟩, ⟨2, false, 'F'⟩] [⟨2, false, 'F'⟩, ⟨1, true, 'I'⟩]
    (by decide) (by decide)

lemma length_eraseFirstQual (s : List Char) (q : Char) :
    s.length ≤ (eraseFirstQual s q).length + 1 := by
  induction s with
  | nil => simp [eraseFirstQual]
  | cons c rest ih =>
    by_cases hc : c = q
    · simp [eraseFirstQual, hc]
    · simp only [eraseFirstQual, if_neg hc, List.length_cons]
      omega

lemma countNonRemoved_set_removed (ids : List UniqueID) (k : Nat) (u : UniqueID)
    (hk : ids.get? k = some u) (hrem : u.removed = false) :
    countNonRemoved (ids.set k { u with removed := true }) + 1 = countNonRemoved ids := by
  have hk2 : ids[k]? = some u := by rw [← List.get?_eq_getElem?]; exact hk
  obtain ⟨hkn, hgetelem⟩ := List.getElem?_eq_some.mp hk2
  unfold countNonRemoved
  rw [List.countP_set _ _ _ _ hkn, hgetelem]
  have hposc : 0 < List.countP (fun e => !e.removed) ids := by
    apply List.countP_pos.mpr
    refine ⟨u, ?_, by simp [hrem]⟩
    rw [← hgetelem]
    exact List.getElem_mem hkn
  simp only [hrem, Bool.not_false, Bool.not_true, Bool.false_eq_true, if_true, if_false,
    ite_true, ite_false]
  omega

lemma idsSorted_appendBase (st : PosState) (id : Nat) (conv : Bool) (q : Char)
    (hs : IDsSorted st.uniqueIDs) : IDsSorted (appendBase st id conv q).uniqueIDs := by
  by_cases hmem : ∃ u ∈ st.uniqueIDs, u.readNameID = id
  · obtain ⟨u, hu, huid⟩ := hmem
    obtain ⟨k, hk⟩ := List.get?_of_mem hu
    by_cases hrem : u.removed
    · rw [appendBase_found_removed st id conv q u k hs hk huid hrem]
      exact hs
    · by_cases hconv : u.isConverted = conv
      · rw [appendBase_found_same st id conv q u k hs hk huid (by simpa using hrem) hconv]
        exact hs
      · have hconv2 : u.isConverted = !conv := by
          cases h1 : u.isConverted <;> cases h2 : conv <;> simp_all
        rw [appendBase_mismatch st id conv q u k hs hk huid (by simpa using hrem) hconv2]
        exact idsSorted_set_removed st.uniqueIDs hs k u hk
  · push_neg at hmem
    rw [appendBase_fresh st id conv q hs hmem]
    show IDsSorted (st.uniqueIDs.insertIdx (lowerBoundIdx st.uniqueIDs id) ⟨id, conv, q, false⟩)
    rw [insertIdx_lowerBound_eq_orderedInsert' id _ rfl]
    exact idsSorted_orderedInsert _ _ hs hmem

/-- C4 (amended): on sorted states each `appendBase` call preserves the
inequality `count of non-removed entries ≤ converted length + unconverted
length`, and the inequality holds after any observation sequence from the
initialized state. Equality can fail (see the counterexample): a retraction
decrements the non-removed count but erases a character only when the new
observation quality occurs in the string. -/
theorem c4_accounting :
    (∀ (st : PosState) (id : Nat) (conv : Bool) (q : Char), IDsSorted st.uniqueIDs →
      countNonRemoved st.uniqueIDs ≤
        st.convertedQualities.length + st.unconvertedQualities.length →
      countNonRemoved (appendBase st id conv q).uniqueIDs ≤
        (appendBase st id conv q).convertedQualities.length +
          (appendBase st id conv q).unconvertedQualities.length) ∧
    (∀ l : List Obs,
      countNonRemoved (applyAll initialPosition l).uniqueIDs ≤
        (applyAll initialPosition l).convertedQualities.length +
          (applyAll initialPosition l).unconvertedQualities.length) := by
  have hstep : ∀ (st : PosState) (id : Nat) (conv : Bool) (q : Char), IDsSorted st.uniqueIDs →
      countNonRemoved st.uniqueIDs ≤
        st.convertedQualities.length + st.unconvertedQualities.length →
      countNonRemoved (appendBase st id conv q).uniqueIDs ≤
        (appendBase st id conv q).convertedQualities.length +
          (appendBase st id conv q).unconvertedQualities.length := by
    intro st id conv q hs hinv
    by_cases hmem : ∃ u ∈ st.uniqueIDs, u.readNameID = id
    · obtain ⟨u, hu, huid⟩ := hmem
      obtain ⟨k, hk⟩ := List.get?_of_mem hu
      by_cases hrem : u.removed
      · rw [appendBase_found_removed st id conv q u k hs hk huid hrem]
        exact hinv
      · by_cases hconv : u.isConverted = conv
        · rw [appendBase_found_same st id conv q u k hs hk huid (by simpa using hrem) hconv]
          exact hinv
        · have hconv2 : u.isConverted = !conv := by
            cases h1 : u.isConverted <;> cases h2 : conv <;> simp_all
          rw [appendBase_mismatch st id conv q u k hs hk huid (by simpa using hrem) hconv2]
          have hcount := countNonRemoved_set_removed st.uniqueIDs k u hk (by simpa using hrem)
          by_cases hic : u.isConverted
          · have hic' : u.isConverted = true := hic
            rw [hic'] at hcount
            simp only [hic', if_true, ite_true]
            have hlen := length_eraseFirstQual st.convertedQualities q
            omega
          · have hic' : u.isConverted = false := by simpa using hic
            rw [hic'] at hcount
            simp only [hic', Bool.false_eq_true, if_false, ite_false]
            have hlen := length_eraseFirstQual st.unconvertedQualities q
            omega
    · push_neg at hmem
      rw [appendBase_fresh st id conv q hs hmem]
      have hcnt : countNonRemoved (st.uniqueIDs.insertIdx (lowerBoundIdx st.uniqueIDs id)
          ⟨id, conv, q, false⟩) = countNonRemoved st.uniqueIDs + 1 := by
        rw [insertIdx_lowerBound_eq_orderedInsert' id _ rfl]
        unfold countNonRemoved
        rw [(List.perm_orderedInsert (fun a b : UniqueID => a.readNameID ≤ b.readNameID)
          ⟨id, conv, q, false⟩ st.uniqueIDs).countP_eq]
        simp [List.countP_cons]
      show countNonRemoved (st.uniqueIDs.insertIdx (lowerBoundIdx st.uniqueIDs id)
          ⟨id, conv, q, false⟩) ≤
        (st.convertedQualities ++ (if conv then [q] else [])).length +
          (st.unconvertedQualities ++ (if conv then [] else [q])).length
      rw [hcnt]
      cases conv <;> simp <;> omega
  refine ⟨hstep, ?_⟩
  have hall : ∀ (l : List Obs) (st : PosState), IDsSorted st.uniqueIDs →
      countNonRemoved st.uniqueIDs ≤
        st.convertedQualities.length + st.unconvertedQualities.length →
      countNonRemoved (applyAll st l).uniqueIDs ≤
        (applyAll st l).convertedQualities.length +
          (applyAll st l).unconvertedQualities.length := by
    intro l
    induction l with
    | nil =>
      intro st hs hinv
      simpa [applyAll] using hinv
    | cons o rest ih =>
      intro st hs hinv
      have h1 : applyAll st (o :: rest) = applyAll (applyObs st o) rest := by
        simp [applyAll, List.foldl_cons]
      rw [h1]
      exact ih (applyObs st o) (idsSorted_appendBase st o.readNameID o.converted o.qual hs)
        (hstep st o.readNameID o.converted o.qual hs hinv)
  intro l
  exact hall l initialPosition List.Pairwise.nil (by simp [initialPosition, countNonRemoved])

/-- Witness for C4 (amended): one fresh converted observation from the
initialized state. -/
theorem c4_accounting_witness :
    countNonRemoved (appendBase initialPosition 7 true 'I').uniqueIDs ≤
      (appendBase initialPosition 7 true 'I').convertedQualities.length +
        (appendBase initialPosition 7 true 'I').unconvertedQualities.length :=
  c4_accounting.1 initialPosition 7 true 'I' List.Pairwise.nil (by decide)

/-- C4 (counterexample): after converted `I` then unconverted `F` on read 7
the strings hold one character while no entry is non-removed, so the claimed
equality fails. -/
theorem c4_counterexample :
    (applyAll initialPosition [⟨7, true, 'I'⟩, ⟨7, false, 'F'⟩]).convertedQualities.length +
        (applyAll initialPosition
          [⟨7, true, 'I'⟩, ⟨7, false, 'F'⟩]).unconvertedQualities.length = 1 ∧
    countNonRemoved (applyAll initialPosition
      [⟨7, true, 'I'⟩, ⟨7, false, 'F'⟩]).uniqueIDs = 0 ∧
    ¬((applyAll initialPosition
          [⟨7, true, 'I'⟩, ⟨7, false, 'F'⟩]).convertedQualities.length +
        (applyAll initialPosition
          [⟨7, true, 'I'⟩, ⟨7, false, 'F'⟩]).unconvertedQualities.length =
      countNonRemoved (applyAll initialPosition
        [⟨7, true, 'I'⟩, ⟨7, false, 'F'⟩]).uniqueIDs) := by
  rw [run_IF]
  exact ⟨rfl, by decide, by decide⟩

lemma setLastStrand_append (ps : List RefPos) (p : RefPos) (s : Char) :
    setLastStrand (ps ++ [p]) s = ps ++ [{ p with strand := s }] := by
  induction ps with
  | nil => rfl
  | cons a rest ih =>
    cases rest with
    | nil => rfl
    | cons b r2 =>
      simp only [List.cons_append] at ih ⊢
      simp only [setLastStrand]
      rw [ih]

lemma appendRefLoop_nonCG (cFrom cFromC : Char) (loc : Int) :
    ∀ (line : List Char) (i : Nat) (lb : Char) (ps : List RefPos),
    appendRefLoop false cFrom cFromC loc i lb ps line =
      (ps ++ positionsFromStrands loc i (line.map (nonCGStrand cFrom cFromC)),
        line.getLastD lb) := by
  intro line
  induction line with
  | nil =>
    intro i lb ps
    simp [appendRefLoop, positionsFromStrands]
  | cons b rest ih =>
    intro i lb ps
    have hstep : appendRefLoop false cFrom cFromC loc i lb ps (b :: rest) =
        appendRefLoop false cFrom cFromC loc (i + 1) b
          (ps ++ [⟨loc + i + 1, nonCGStrand cFrom cFromC b⟩]) rest := by
      simp [appendRefLoop, nonCGStrand]
    rw [hstep, ih]
    simp only [Prod.mk.injEq]
    refine ⟨?_, (List.getLastD_cons lb b rest).symm⟩
    simp [positionsFromStrands, List.map_cons, List.append_assoc]

lemma appendRefLoop_cg (cFrom cFromC : Char) (loc : Int) :
    ∀ (line : List Char) (i : Nat) (lb : Char) (ps : List RefPos),
    appendRefLoop true cFrom cFromC loc i lb ps line =
      ((if lb = 'C' ∧ line.head? = some 'G' then setLastStrand ps '+' else ps) ++
        positionsFromStrands loc i (cgStrandSeq lb line),
        line.getLastD lb) := by
  intro line
  induction line with
  | nil =>
    intro i lb ps
    simp [appendRefLoop, cgStrandSeq, positionsFromStrands]
  | cons b rest ih =>
    intro i lb ps
    have hstep : appendRefLoop true cFrom cFromC loc i lb ps (b :: rest) =
        appendRefLoop true cFrom cFromC loc (i + 1) b
          ((if lb = 'C' ∧ b = 'G' then setLastStrand ps '+' else ps) ++
            [⟨loc + i + 1, if lb = 'C' ∧ b = 'G' then '-' else '?'⟩]) rest := by
      simp [appendRefLoop]
    rw [hstep, ih]
    simp only [Prod.mk.injEq]
    refine ⟨?_, (List.getLastD_cons lb b rest).symm⟩
    by_cases h1 : lb = 'C' ∧ b = 'G'
    · obtain ⟨hlb, hbg⟩ := h1
      subst hlb
      subst hbg
      by_cases h2 : ('G' : Char) = 'C' ∧ rest.head? = some 'G'
      · exact absurd h2.1 (by decide)
      · simp [h2, cgStrandSeq, positionsFromStrands, List.append_assoc]
    · by_cases h2 : b = 'C' ∧ rest.head? = some 'G'
      · obtain ⟨hbc, hhead⟩ := h2
        subst hbc
        simp [h1, hhead, cgStrandSeq, positionsFromStrands, List.append_assoc,
          setLastStrand_append]
      · have hcond2 : ¬ (lb = 'C' ∧ (b :: rest).head? = some 'G') := by
          intro hcon
          exact h1 ⟨hcon.1, by simpa using hcon.2⟩
        simp [h1, h2, hcond2, cgStrandSeq, positionsFromStrands, List.append_assoc]

/-- C6 (amended): per call to `appendRefPosition` on an uppercased line. In
non-CG mode each fresh position at `location + i + 1` receives the strand of
the else-if chain: `'+'` when the base equals `convert_from`, otherwise `'-'`
when it equals `convert_from_complement`, otherwise `'?'` (so when the two
globals coincide, `'+'` wins and the `'-'` case is unreachable). In CG-only
mode the previously appended position is set to `'+'` and the current one to
`'-'` exactly when the previous base is `'C'` and the current one `'G'`
(provided the window is non-empty when the pair spans the call boundary, where
the C++ would otherwise call `back()` on an empty vector); all other strands
stay `'?'`. -/
theorem c6_ref_strand_assignment :
    (∀ (cFrom cFromC : Char) (st : RefState) (line : List Char),
      appendRefPosition false cFrom cFromC st line =
        ⟨st.location + line.length, line.getLastD st.lastBase,
         st.refPositions ++
           positionsFromStrands st.location 0 (line.map (nonCGStrand cFrom cFromC))⟩) ∧
    (∀ (cFrom cFromC : Char) (st : RefState) (line : List Char),
      (st.lastBase = 'C' → line.head? = some 'G' → st.refPositions ≠ []) →
      appendRefPosition true cFrom cFromC st line =
        ⟨st.location + line.length, line.getLastD st.lastBase,
         (if st.lastBase = 'C' ∧ line.head? = some 'G'
          then setLastStrand st.refPositions '+' else st.refPositions) ++
           positionsFromStrands st.location 0 (cgStrandSeq st.lastBase line)⟩) := by
  constructor
  · intro cFrom cFromC st line
    unfold appendRefPosition
    rw [appendRefLoop_nonCG cFrom cFromC st.location line 0 st.lastBase st.refPositions]
  · intro cFrom cFromC st line _hne
    unfold appendRefPosition
    rw [appendRefLoop_cg cFrom cFromC st.location line 0 st.lastBase st.refPositions]

/-- C6 (counterexample): with `convert_from = convert_from_complement = 'G'`
(reachable via `--base-change G,A`, since the complement is hard-coded `'G'`),
a reference base `'G'` equals `convert_from_complement` yet receives strand
`'+'`, refuting the claimed "`'-'` if and only if the base equals
`convert_from_complement`". -/
theorem c6_counterexample :
    (appendRefPosition false 'G' 'G' ⟨0, 'X', []⟩ ['G']).refPositions = [⟨1, '+'⟩] ∧
    nonCGStrand 'G' 'G' 'G' = '+' ∧ ('+' : Char) ≠ '-' := by
  refine ⟨by decide, by decide, by decide⟩

/-- Witness for C6 (amended): a non-CG call on `AC` and a CG call where the
CG pair spans the call boundary. -/
theorem c6_ref_strand_assignment_witness :
    appendRefPosition false 'C' 'G' ⟨0, 'X', []⟩ ['A', 'C'] =
      ⟨0 + (['A', 'C'] : List Char).length, (['A', 'C'] : List Char).getLastD 'X',
       [] ++ positionsFromStrands 0 0 ((['A', 'C'] : List Char).map (nonCGStrand 'C' 'G'))⟩ ∧
    appendRefPosition true 'C' 'G' ⟨1, 'C', [⟨1, '?'⟩]⟩ ['G'] =
      ⟨1 + (['G'] : List Char).length, (['G'] : List Char).getLastD 'C',
       (if ('C' : Char) = 'C' ∧ (['G'] : List Char).head? = some 'G'
        then setLastStrand [⟨1, '?'⟩] '+' else [⟨1, '?'⟩]) ++
         positionsFromStrands 1 0 (cgStrandSeq 'C' ['G'])⟩ :=
  ⟨c6_ref_strand_assignment.1 'C' 'G' ⟨0, 'X', []⟩ ['A', 'C'],
   c6_ref_strand_assignment.2 'C' 'G' ⟨1, 'C', [⟨1, '?'⟩]⟩ ['G'] (fun _ _ => by decide)⟩

end HisatTable
